import Mathlib

set_option maxHeartbeats 1000000

/-!
Verification development for the D&D session toolchain repository.

The transcript-cleanup component (`dnd_pipeline/cleanup.py`) and the campaign
index component (`dnd_pipeline/indexing.py`, `dnd_pipeline/models.py`) are
embedded shallowly below.  Strings are modelled as `List Char` where character
level reasoning is needed; a token (a `WORD_RE` match) is a `List Char`.
Python's `str.casefold` agrees with per-character ASCII lowering on the
alphanumeric/connector characters that tokens consist of, and is modelled by
`List.map Char.toLower`.  Loops of the source are modelled by fuel-indexed
structural recursion; the fuel supplied by each wrapper strictly exceeds the
maximal number of iterations the corresponding Python loop can make, so the
wrappers compute exactly what the loops compute.
-/

namespace Pipeline

/-- The character class `[A-Za-z0-9]` of `WORD_RE` in cleanup.py. -/
def isWordChar (c : Char) : Bool :=
  (('A' ≤ c) && (c ≤ 'Z')) || (('a' ≤ c) && (c ≤ 'z')) || (('0' ≤ c) && (c ≤ '9'))

/-- The connector class `['&-]` of `WORD_RE`: apostrophe, ampersand, hyphen. -/
def isConnector (c : Char) : Bool :=
  (c == Char.ofNat 39) || (c == '&') || (c == '-')

/-- ASCII whitespace stripped by Python `str.strip()` / `str.rstrip()`. -/
def isPySpace (c : Char) : Bool :=
  (c == ' ') || (c == '\t') || (c == '\n') || (c == '\x0d') ||
  (c == '\x0b') || (c == '\x0c')

/-- Python `str.rstrip()` on a character list. -/
def rtrimChars (cs : List Char) : List Char :=
  (cs.reverse.dropWhile isPySpace).reverse

/-- Python `str.strip()` on a character list. -/
def trimChars (cs : List Char) : List Char :=
  rtrimChars (cs.dropWhile isPySpace)

/-- Python `str.casefold` restricted to the ASCII characters a token can
contain (`_lower_tokens` applies it to each token). -/
def casefoldTok (t : List Char) : List Char := t.map Char.toLower

/-- `_lower_tokens` of cleanup.py: case-fold a token list for comparisons. -/
def lowerTokens (ts : List (List Char)) : List (List Char) := ts.map casefoldTok

/-- Maximal run of `[A-Za-z0-9]` characters at the head of the input;
returns the run and the remainder. -/
def takeRun : List Char → List Char × List Char
  | [] => ([], [])
  | c :: cs =>
    if isWordChar c then
      let p := takeRun cs
      (c :: p.1, p.2)
    else ([], c :: cs)

/-- Greedy scan of the `(?:['&-][A-Za-z0-9]+)*` suffix of a `WORD_RE` match:
repeatedly absorb one connector character followed by an alphanumeric run.
Fuel-indexed; each step consumes at least two characters. -/
def grabExtF : Nat → List Char → List Char × List Char
  | 0, cs => ([], cs)
  | fuel + 1, cs =>
    match cs with
    | c :: d :: rest =>
      if isConnector c && isWordChar d then
        let p := takeRun (d :: rest)
        let q := grabExtF fuel p.2
        (c :: (p.1 ++ q.1), q.2)
      else ([], c :: d :: rest)
    | _ => ([], cs)

/-- The `(?:['&-][A-Za-z0-9]+)*` suffix scanner with sufficient fuel. -/
def grabExt (cs : List Char) : List Char × List Char := grabExtF cs.length cs

/-- `WORD_RE.findall` as a left-to-right scanner over the characters:
non-word characters are separators, a word character starts a greedy match.
Fuel-indexed; each step consumes at least one character. -/
def tokenizeF : Nat → List Char → List (List Char)
  | 0, _ => []
  | fuel + 1, cs =>
    match cs with
    | [] => []
    | c :: rest =>
      if isWordChar c then
        let p := takeRun (c :: rest)
        let q := grabExt p.2
        (p.1 ++ q.1) :: tokenizeF fuel q.2
      else tokenizeF fuel rest

/-- `WORD_RE.findall` on a character list. -/
def findWords (cs : List Char) : List (List Char) := tokenizeF cs.length cs

/-- The conservative filler vocabulary `FILLER_WORDS` of cleanup.py. -/
def fillerWords : List (List Char) :=
  [("uh" : String).data, ("um" : String).data, ("erm" : String).data,
   ("hmm" : String).data, ("mm" : String).data]

/-- `_drop_filler_only_line`: true when every token (case-folded) is filler;
an empty token list is also filler-only. -/
def dropFillerOnlyLine (tokens : List (List Char)) : Bool :=
  tokens.all (fun t => fillerWords.contains (casefoldTok t))

/-- Inner loop of `_collapse_repeated_words`: `last` is the casefold-relevant
previously emitted token. -/
def crwGo (last : List Char) : List (List Char) → List (List Char)
  | [] => []
  | t :: ts =>
    if casefoldTok t = casefoldTok last then crwGo last ts
    else t :: crwGo t ts

/-- `_collapse_repeated_words`: collapse immediate single-token repeats. -/
def collapseRepeatedWords : List (List Char) → List (List Char)
  | [] => []
  | t :: ts => t :: crwGo t ts

/-- The inner `while i + n <= len(words) and _lower_tokens(...) == first` skip
loop of `_collapse_repeated_ngrams`: drop leading `n`-blocks whose case-folded
form equals `first`.  Fuel-indexed; each step consumes `n ≥ 1` tokens. -/
def skipRepsF : Nat → Nat → List (List Char) → List (List Char) → List (List Char)
  | 0, _, _, ws => ws
  | fuel + 1, n, first, ws =>
    if 0 < n ∧ n ≤ ws.length ∧ lowerTokens (ws.take n) = first then
      skipRepsF fuel n first (ws.drop n)
    else ws

/-- The skip loop with sufficient fuel. -/
def skipReps (n : Nat) (first : List (List Char)) (ws : List (List Char)) :
    List (List Char) :=
  skipRepsF (ws.length + 1) n first ws

/-- One left-to-right sweep of `_collapse_repeated_ngrams` for a fixed phrase
length `n` (the `while i < len(words)` loop): on a match keep one copy of the
phrase, skip all its consecutive repetitions, and record a change.
`_collapse_repeated_ngrams` only invokes this with `n ∈ {4, 3, 2}`, for which
the `0 < n` conjunct of the guard is vacuous. -/
def scanPassF : Nat → Nat → List (List Char) → List (List Char) × Bool
  | 0, _, ws => (ws, false)
  | fuel + 1, n, ws =>
    match ws with
    | [] => ([], false)
    | w :: rest =>
      if 0 < n ∧ 2 * n ≤ (w :: rest).length ∧
          lowerTokens ((w :: rest).take n) =
            lowerTokens (((w :: rest).drop n).take n) then
        let first := lowerTokens ((w :: rest).take n)
        let rem := skipReps n first ((w :: rest).drop n)
        ((w :: rest).take n ++ (scanPassF fuel n rem).1, true)
      else
        let p := scanPassF fuel n rest
        (w :: p.1, p.2)

/-- One sweep for phrase length `n` with sufficient fuel. -/
def scanPass (n : Nat) (ws : List (List Char)) : List (List Char) × Bool :=
  scanPassF (ws.length + 1) n ws

/-- One iteration of the `for n in range(max_ngram, 1, -1)` body: sequences
shorter than `2 * n` are skipped, and `words` is replaced only when the sweep
reported a change. -/
def ngramStage (n : Nat) (ws : List (List Char)) : List (List Char) × Bool :=
  if ws.length < 2 * n then (ws, false)
  else
    let p := scanPass n ws
    if p.2 then (p.1, true) else (ws, false)

/-- One full pass of the `for` loop with `max_ngram = 4`: phrase lengths 4,
then 3, then 2, accumulating the `changed` flag. -/
def ngramPass (ws : List (List Char)) : List (List Char) × Bool :=
  let p4 := ngramStage 4 ws
  let p3 := ngramStage 3 p4.1
  let p2 := ngramStage 2 p3.1
  (p2.1, p4.2 || p3.2 || p2.2)

/-- The `while changed` loop of `_collapse_repeated_ngrams`.  Fuel-indexed;
every changed pass strictly shrinks the sequence, so `length + 1` fuel always
reaches the fixed point. -/
def collapseLoopF : Nat → List (List Char) → List (List Char)
  | 0, ws => ws
  | fuel + 1, ws =>
    let p := ngramPass ws
    if p.2 then collapseLoopF fuel p.1 else ws

/-- `_collapse_repeated_ngrams` with its default `max_ngram = 4`. -/
def collapseRepeatedNgrams (tokens : List (List Char)) : List (List Char) :=
  if tokens.length < 2 then tokens
  else collapseLoopF (tokens.length + 1) tokens

/-- The repeat-collapsing transformation applied by `clean_line`: adjacent
single-token collapse followed by contiguous phrase collapse. -/
def collapseTokens (tokens : List (List Char)) : List (List Char) :=
  collapseRepeatedNgrams (collapseRepeatedWords tokens)

/-- Python `sep.join(parts)` on character lists. -/
def joinWith (sep : List Char) : List (List Char) → List Char
  | [] => []
  | [t] => t
  | t :: ts => t ++ sep ++ joinWith sep ts

/-- `" ".join(tokens)` on token lists. -/
def joinSpace (tokens : List (List Char)) : List Char :=
  joinWith [' '] tokens

/-- `clean_line` of cleanup.py on a character list. -/
def cleanLine (line : List Char) : List Char :=
  let tokens := findWords line
  if tokens.isEmpty then []
  else
    let tokens := collapseTokens tokens
    if dropFillerOnlyLine tokens then []
    else trimChars (joinSpace tokens)

/-- `clean_line` on Lean strings. -/
def cleanLineStr (line : String) : String := String.mk (cleanLine line.data)

/-- Line-terminator characters recognised by Python `str.splitlines`
(`\r\n` is additionally handled as a single terminator). -/
def isLineBreak (c : Char) : Bool :=
  (c == '\n') || (c == '\x0d') || (c == '\x0b') || (c == '\x0c') ||
  (c == '\x1c') || (c == '\x1d') || (c == '\x1e') || (c == '\x85') ||
  (c == '\u2028') || (c == '\u2029')

/-- Split off the first line: returns the line content and the remainder
after its terminator (`\r\n` counts as one terminator). -/
def breakLine : List Char → List Char × List Char
  | [] => ([], [])
  | c :: rest =>
    if isLineBreak c then
      if c == '\x0d' && (rest.head? == some '\n') then ([], rest.tail)
      else ([], rest)
    else
      let p := breakLine rest
      (c :: p.1, p.2)

/-- Python `str.splitlines`: no trailing empty line for a trailing
terminator, and `[]` on the empty string.  Fuel-indexed; each step consumes
at least one character. -/
def splitlinesF : Nat → List Char → List (List Char)
  | 0, _ => []
  | fuel + 1, cs =>
    match cs with
    | [] => []
    | c :: rest =>
      let p := breakLine (c :: rest)
      p.1 :: splitlinesF fuel p.2

/-- `str.splitlines` with sufficient fuel. -/
def splitlines (cs : List Char) : List (List Char) := splitlinesF cs.length cs

/-- `CleanupStats` of cleanup.py. -/
structure CleanupStats where
  lines_in : Nat
  lines_out : Nat
  words_in : Nat
  words_out : Nat
deriving DecidableEq

/-- The per-line emission loop of `clean_transcript_text`: drop lines whose
cleanup is empty and lines whose case-folded form equals the previously
emitted line's case-folded form. -/
def emitLines (prev : List Char) : List (List Char) → List (List Char)
  | [] => []
  | l :: ls =>
    let cleaned := cleanLine l
    if cleaned.isEmpty then emitLines prev ls
    else if casefoldTok cleaned = prev then emitLines prev ls
    else cleaned :: emitLines (casefoldTok cleaned) ls

/-- `clean_transcript_text` of cleanup.py on a character list. -/
def cleanTranscriptChars (raw : List Char) : List Char × CleanupStats :=
  let inputLines := splitlines raw
  let wordsIn := (findWords raw).length
  let cleanedLines := emitLines [] inputLines
  let cleanedText := trimChars (joinWith ['\n'] cleanedLines)
  let wordsOut := (findWords cleanedText).length
  let stats : CleanupStats :=
    ⟨inputLines.length, cleanedLines.length, wordsIn, wordsOut⟩
  (if cleanedText.isEmpty then [] else cleanedText ++ ['\n'], stats)

/-- `clean_transcript_text` on Lean strings. -/
def cleanTranscriptText (raw : String) : String × CleanupStats :=
  let p := cleanTranscriptChars raw.data
  (String.mk p.1, p.2)

/-- No two adjacent tokens are equal up to case folding — the invariant that
`_collapse_repeated_words` establishes and `_collapse_repeated_ngrams`
preserves. -/
def NoAdjDup (ts : List (List Char)) : Prop :=
  List.Chain' (fun a b => casefoldTok a ≠ casefoldTok b) ts

/-- Python `str.strip()` on Lean strings. -/
def pyStrip (s : String) : String := String.mk (trimChars s.data)

/-- Python `str.rstrip()` on Lean strings. -/
def pyRstrip (s : String) : String := String.mk (rtrimChars s.data)

/-- Python `str.casefold` on Lean strings (ASCII lowering; the names it is
applied to are compared for equality only, so only injectivity-up-to-case
matters). -/
def casefoldStr (s : String) : String := String.mk (casefoldTok s.data)

/-- JSON values as produced by Python `json.loads` (numbers modelled as
integers; floating-point numbers are outside the scope of the claims). -/
inductive JsonValue where
  | null : JsonValue
  | bool (b : Bool) : JsonValue
  | num (n : Int) : JsonValue
  | str (s : String) : JsonValue
  | arr (xs : List JsonValue) : JsonValue
  | obj (fields : List (String × JsonValue)) : JsonValue

/-- Python `repr` of a JSON value (quote-escaping inside strings is not
modelled; no claim depends on the rendered text of a composite value). -/
def pyRepr : JsonValue → String
  | .null => "None"
  | .bool true => "True"
  | .bool false => "False"
  | .num n => toString n
  | .str s => "\x27" ++ s ++ "\x27"
  | .arr xs => "[" ++ String.intercalate (", ") (xs.attach.map (fun x => pyRepr x.1)) ++ "]"
  | .obj fs => "\x7b" ++ String.intercalate (", ")
      (fs.attach.map (fun f => "\x27" ++ f.1.1 ++ "\x27: " ++ pyRepr f.1.2)) ++ "\x7d"
decreasing_by
· have h := List.sizeOf_lt_of_mem x.2
  simp only [JsonValue.arr.sizeOf_spec]
  omega
· have h := List.sizeOf_lt_of_mem f.2
  have h2 : sizeOf f.1.2 < sizeOf f.1 := by
    obtain ⟨⟨a, b⟩, hf⟩ := f
    simp
  simp only [JsonValue.obj.sizeOf_spec]
  omega

/-- Python `str(x)` on a JSON value: identity on strings, `repr` otherwise. -/
def pyStr : JsonValue → String
  | .str s => s
  | v => pyRepr v

/-- Python `[str(v) for v in x]` on a JSON value: succeeds on the iterable
values (lists, strings, dicts), raises `TypeError` on None, booleans and
numbers.  Iterating a string yields its characters, iterating a dict yields
its keys. -/
def pyIterStrs : JsonValue → Except String (List String)
  | .arr xs => .ok (xs.map pyStr)
  | .str s => .ok (s.data.map (fun c => String.mk [c]))
  | .obj fs => .ok (fs.map Prod.fst)
  | .null => .error ("TypeError: \x27NoneType\x27 object is not iterable")
  | .bool _ => .error ("TypeError: \x27bool\x27 object is not iterable")
  | .num _ => .error ("TypeError: \x27int\x27 object is not iterable")

/-- Whether a JSON value can be iterated by a Python `for` loop. -/
def iterableJson : JsonValue → Bool
  | .null => false
  | .bool _ => false
  | .num _ => false
  | _ => true

/-- The `SessionSummary` dataclass of models.py. -/
structure SessionSummary where
  session_title : String
  session_date : String
  characters : List String := []
  locations : List String := []
  factions : List String := []
  events : List String := []
  unresolved_hooks : List String := []
  last_session_narrative : String := ""
  plain_text_summary : String := ""
  backlink_block : String := ""
deriving DecidableEq

/-- Inner loop of `_normalize_list` of models.py, with the `seen` set carried
as a list of case-folded keys. -/
def normalizeListGo (seen : List String) : List String → List String
  | [] => []
  | v :: vs =>
    let clean := pyStrip v
    if clean = "" then normalizeListGo seen vs
    else if casefoldStr clean ∈ seen then normalizeListGo seen vs
    else clean :: normalizeListGo (casefoldStr clean :: seen) vs

/-- `_normalize_list`: unique, stripped values preserving input order. -/
def normalizeList (values : List String) : List String := normalizeListGo [] values

/-- `SessionSummary.normalize` of models.py (modelled as a pure function). -/
def SessionSummary.normalize (s : SessionSummary) : SessionSummary :=
  { session_title := pyStrip s.session_title,
    session_date := pyStrip s.session_date,
    characters := normalizeList s.characters,
    locations := normalizeList s.locations,
    factions := normalizeList s.factions,
    events := normalizeList s.events,
    unresolved_hooks := normalizeList s.unresolved_hooks,
    last_session_narrative := pyStrip s.last_session_narrative,
    plain_text_summary := pyStrip s.plain_text_summary,
    backlink_block := pyStrip s.backlink_block }

/-- Python `payload.get(k)` on a JSON object represented as a key/value list
(dict keys are unique, lookup finds the first match). -/
def lookupJson (payload : List (String × JsonValue)) (k : String) :
    Option JsonValue :=
  (payload.find? (fun p => p.1 == k)).map Prod.snd

/-- Python `payload.get(k, d)`. -/
def getJsonD (payload : List (String × JsonValue)) (k : String) (d : JsonValue) :
    JsonValue :=
  (lookupJson payload k).getD d

/-- The `required` key list of `SessionSummary.from_payload`. -/
def requiredKeys : List String :=
  ["session_title", "session_date", "characters", "locations", "events",
   "unresolved_hooks"]

/-- The `missing` list computed by `SessionSummary.from_payload`. -/
def missingKeys (payload : List (String × JsonValue)) : List String :=
  requiredKeys.filter (fun k => (lookupJson payload k).isNone)

/-- `SessionSummary.from_payload` of models.py.  The list-field
comprehensions are evaluated in source order (characters, locations,
factions, events, unresolved_hooks), so the first non-iterable among them
determines the raised `TypeError`. -/
def fromPayload (payload : List (String × JsonValue)) :
    Except String SessionSummary :=
  let missing := missingKeys payload
  if missing.isEmpty then do
    let characters ← pyIterStrs (getJsonD payload ("characters") (.arr []))
    let locations ← pyIterStrs (getJsonD payload ("locations") (.arr []))
    let factions ← pyIterStrs (getJsonD payload ("factions") (.arr []))
    let events ← pyIterStrs (getJsonD payload ("events") (.arr []))
    let unresolved_hooks ← pyIterStrs (getJsonD payload ("unresolved_hooks") (.arr []))
    .ok (SessionSummary.normalize
      { session_title := pyStr (getJsonD payload ("session_title") .null),
        session_date := pyStr (getJsonD payload ("session_date") .null),
        characters := characters,
        locations := locations,
        factions := factions,
        events := events,
        unresolved_hooks := unresolved_hooks,
        last_session_narrative := pyStr (getJsonD payload ("last_session_narrative") (.str "")),
        plain_text_summary := pyStr (getJsonD payload ("plain_text_summary") (.str "")),
        backlink_block := pyStr (getJsonD payload ("backlink_block") (.str "")) })
  else
    .error (("Missing keys in summarizer JSON: ") ++ String.intercalate (", ") missing)

/-- One entry of the ledger's `sessions` array. -/
structure SessionRecord where
  title : String
  date : String
  note_file : String
  transcript_file : String
deriving DecidableEq

/-- The persisted campaign ledger of indexing.py (the JSON object's fixed
schema; entity maps are insertion-ordered Python dicts, modelled as
association lists). -/
structure CampaignIndex where
  sessions : List SessionRecord
  characters : List (String × List String)
  locations : List (String × List String)
  factions : List (String × List String)
  events : List (String × List String)
  unresolved_hooks : List String
  updated_at : String
deriving DecidableEq

/-- `_default_index` of indexing.py. -/
def defaultIndex : CampaignIndex := ⟨[], [], [], [], [], [], ""⟩

/-- `load_index` of indexing.py.  The filesystem is abstracted as
`Option String` (the file's content, or `none` when the file does not
exist) and Python's `json.loads` plus schema reading as `parse`; the source
has no exception handler around `json.loads`, so a parse failure propagates
to the caller unchanged. -/
def loadIndex (parse : String → Except String CampaignIndex) :
    Option String → Except String CampaignIndex
  | none => .ok defaultIndex
  | some content => parse content

/-- `_add_entity` of indexing.py: `entries.setdefault(entity_name, [])` then
append the session title unless already present.  Python dict `setdefault`
inserts a fresh key at the end of the insertion order. -/
def addEntity : List (String × List String) → String → String →
    List (String × List String)
  | [], name, title => [(name, [title])]
  | (k, ts) :: rest, name, title =>
    if k = name then
      (k, if title ∈ ts then ts else ts ++ [title]) :: rest
    else (k, ts) :: addEntity rest name title

/-- First-match lookup in an entity map (Python dict access; dict keys are
unique so first match is the match). -/
def lookupEnt : List (String × List String) → String → Option (List String)
  | [], _ => none
  | (k, ts) :: rest, name => if k = name then some ts else lookupEnt rest name

/-- `title` is recorded under `name` in the entity map. -/
def Recorded (m : List (String × List String)) (name title : String) : Prop :=
  ∃ ts, lookupEnt m name = some ts ∧ title ∈ ts

/-- `update_index` of indexing.py, in memory: the read-modify-write of the
ledger file becomes a function from the loaded ledger to the written one,
`now` abstracts `datetime.utcnow().strftime(...)`, and the two path
arguments are given in their `as_posix` string form. -/
def updateIndex (index : CampaignIndex) (summary : SessionSummary)
    (notePath transcriptPath now : String) : CampaignIndex :=
  let record : SessionRecord :=
    ⟨summary.session_title, summary.session_date, notePath, transcriptPath⟩
  let sessions :=
    if record ∈ index.sessions then index.sessions
    else index.sessions ++ [record]
  let characters := summary.characters.foldl
    (fun m n => addEntity m n summary.session_title) index.characters
  let locations := summary.locations.foldl
    (fun m n => addEntity m n summary.session_title) index.locations
  let factions := summary.factions.foldl
    (fun m n => addEntity m n summary.session_title) index.factions
  let events := summary.events.foldl
    (fun m n => addEntity m n summary.session_title) index.events
  let hooks := summary.unresolved_hooks.foldl
    (fun hs h => if h ∈ hs then hs else hs ++ [h]) index.unresolved_hooks
  { sessions := sessions, characters := characters, locations := locations,
    factions := factions, events := events, unresolved_hooks := hooks,
    updated_at := now }

/-- The truncation step of `_trim_list`: names longer than `maxChars` become
their first `maxChars - 3` characters, right-stripped, plus an ellipsis. -/
def truncateName (maxChars : Nat) (clean : String) : String :=
  if maxChars < clean.length then
    pyRstrip (String.mk (clean.data.take (maxChars - 3))) ++ "..."
  else clean

/-- `_trim_list` of indexing.py, with the `seen` set carried as a list of
case-folded keys and the limit counted down (`limit ≤ 1` is the state in
which one more append reaches `len(out) >= limit` and breaks). -/
def trimList (limit maxChars : Nat) (seen : List String) :
    List String → List String
  | [] => []
  | v :: vs =>
    let clean := pyStrip v
    if clean = "" then trimList limit maxChars seen vs
    else if casefoldStr clean ∈ seen then trimList limit maxChars seen vs
    else
      let c2 := truncateName maxChars clean
      if limit ≤ 1 then [c2]
      else c2 :: trimList (limit - 1) maxChars (casefoldStr clean :: seen) vs

/-- The snapshot returned by `get_campaign_memory_context`. -/
structure CampaignMemorySnapshot where
  historical_session_count : Nat
  recent_sessions : List (String × String)
  known_characters : List String
  known_locations : List String
  known_factions : List String
  known_events : List String
  open_hooks : List String
deriving DecidableEq

/-- `get_campaign_memory_context` of indexing.py on a loaded ledger.
`resolveKey` abstracts `_path_key(_resolve_index_path(index_path, value))`
(filesystem path resolution) and `currentKey` abstracts
`_path_key(current_transcript_path)`. -/
def getCampaignMemoryContext (resolveKey : String → String)
    (index : CampaignIndex) (currentKey : String) : CampaignMemorySnapshot :=
  let historical := index.sessions.filterMap (fun r =>
    let tv := pyStrip r.transcript_file
    if tv = "" then none
    else if resolveKey tv = currentKey then none
    else some (pyStrip r.title, pyStrip r.date))
  { historical_session_count := historical.length,
    recent_sessions := historical.drop (historical.length - 5),
    known_characters := trimList 30 80 [] (index.characters.map Prod.fst),
    known_locations := trimList 30 80 [] (index.locations.map Prod.fst),
    known_factions := trimList 30 80 [] (index.factions.map Prod.fst),
    known_events := trimList 15 100 [] (index.events.map Prod.fst),
    open_hooks := trimList 10 120 [] index.unresolved_hooks }

/-- The context dict built by `get_previous_session_context`. -/
structure SessionContext where
  session_title : String
  session_date : String
  previously_on : String
  last_session_narrative : String
  plain_text_summary : String
  unresolved_hooks : List String
  characters : List String
  locations : List String
  factions : List String
  events : List String
deriving DecidableEq

/-- The context construction of `get_previous_session_context` for one
candidate record.  The dict-literal comprehensions evaluate in source order
(hooks, characters, locations, factions, events); `globalHooks` is the
ledger's global hook list used as a fallback when the per-session hook list
is empty. -/
def buildContext (globalHooks : List String) (r : SessionRecord)
    (payload : List (String × JsonValue)) : Except String SessionContext := do
  let hooks ← pyIterStrs (getJsonD payload ("unresolved_hooks") (.arr []))
  let characters ← pyIterStrs (getJsonD payload ("characters") (.arr []))
  let locations ← pyIterStrs (getJsonD payload ("locations") (.arr []))
  let factions ← pyIterStrs (getJsonD payload ("factions") (.arr []))
  let events ← pyIterStrs (getJsonD payload ("events") (.arr []))
  let hooks := if hooks.isEmpty then globalHooks.take 8 else hooks
  .ok { session_title := pyStrip r.title,
        session_date := pyStrip r.date,
        previously_on := pyStrip (pyStr (getJsonD payload ("previously_on") (.str ""))),
        last_session_narrative := pyStrip (pyStr (getJsonD payload ("last_session_narrative") (.str ""))),
        plain_text_summary := pyStrip (pyStr (getJsonD payload ("plain_text_summary") (.str ""))),
        unresolved_hooks := hooks,
        characters := characters,
        locations := locations,
        factions := factions,
        events := events }

/-- The emission condition of `get_previous_session_context`: any of title,
previously-on, narrative, plain summary or (post-fallback) hooks non-empty. -/
def emitCheck (c : SessionContext) : Bool :=
  (c.session_title != "") || (c.previously_on != "") ||
  (c.last_session_narrative != "") || (c.plain_text_summary != "") ||
  (!c.unresolved_hooks.isEmpty)

/-- The `for record in reversed(sessions)` loop of
`get_previous_session_context`, over the already-reversed record list.
`summaryPayload` abstracts reading and JSON-parsing the record's adjacent
`<transcript>.summary.json`; the source recovers from a missing or
malformed file by using an empty payload, so `summaryPayload` totally maps a
transcript value to the payload (with `[]` for those recovered cases). -/
def prevGo (resolveKey : String → String)
    (summaryPayload : String → List (String × JsonValue))
    (globalHooks : List String) (currentKey : String) :
    List SessionRecord → Except String (Option SessionContext)
  | [] => .ok none
  | r :: rest =>
    let tv := pyStrip r.transcript_file
    if tv = "" then prevGo resolveKey summaryPayload globalHooks currentKey rest
    else if resolveKey tv = currentKey then
      prevGo resolveKey summaryPayload globalHooks currentKey rest
    else do
      let ctx ← buildContext globalHooks r (summaryPayload tv)
      if emitCheck ctx then .ok (some ctx)
      else prevGo resolveKey summaryPayload globalHooks currentKey rest

/-- `get_previous_session_context` of indexing.py on a loaded ledger, with
path resolution and the summary-file filesystem abstracted as in
`getCampaignMemoryContext` and `prevGo`. -/
def getPreviousSessionContext (resolveKey : String → String)
    (summaryPayload : String → List (String × JsonValue))
    (index : CampaignIndex) (currentKey : String) :
    Except String (Option SessionContext) :=
  prevGo resolveKey summaryPayload index.unresolved_hooks currentKey
    index.sessions.reverse

/-! ### Tokenizer lemmas -/

theorem connector_not_word {c : Char} (h : isConnector c = true) :
    isWordChar c = false := by
  simp only [isConnector, Bool.or_eq_true, beq_iff_eq] at h
  rcases h with (h | h) | h <;> subst h <;> decide

theorem takeRun_spec : ∀ cs : List Char, (takeRun cs).1 ++ (takeRun cs).2 = cs
  | [] => rfl
  | c :: cs => by
    by_cases h : isWordChar c
    · simp [takeRun, h, takeRun_spec cs]
    · simp [takeRun, h]

theorem takeRun_fst_word : ∀ cs : List Char, ∀ x ∈ (takeRun cs).1,
    isWordChar x = true
  | [] => by intro x hx; simp [takeRun] at hx
  | c :: cs => by
    intro x hx
    by_cases h : isWordChar c
    · simp only [takeRun, h, if_true, List.mem_cons] at hx
      rcases hx with rfl | hx
      · exact h
      · exact takeRun_fst_word cs x hx
    · simp [takeRun, h] at hx

theorem takeRun_snd_head : ∀ cs : List Char, ∀ x ∈ (takeRun cs).2.head?,
    isWordChar x = false
  | [] => by intro x hx; simp [takeRun] at hx
  | c :: cs => by
    intro x hx
    by_cases h : isWordChar c
    · simp only [takeRun, h, if_true] at hx
      exact takeRun_snd_head cs x hx
    · have h' : isWordChar c = false := Bool.eq_false_iff.mpr h
      simp only [takeRun, h', Bool.false_eq_true, if_false, List.head?_cons,
        Option.mem_some_iff] at hx
      subst hx
      exact h'

theorem takeRun_cons_word {c : Char} (cs : List Char) (h : isWordChar c = true) :
    takeRun (c :: cs) = (c :: (takeRun cs).1, (takeRun cs).2) := by
  simp [takeRun, h]

theorem takeRun_snd_length (cs : List Char) :
    (takeRun cs).2.length ≤ cs.length := by
  have h := congrArg List.length (takeRun_spec cs)
  simp only [List.length_append] at h
  omega

theorem takeRun_sep (as : List Char) (c : Char) (zs : List Char)
    (hc : isWordChar c = false) :
    takeRun (as ++ c :: zs) = ((takeRun as).1, (takeRun as).2 ++ c :: zs) := by
  induction as with
  | nil => simp [takeRun, hc]
  | cons a as ih =>
    by_cases h : isWordChar a
    · simp [takeRun, h, ih]
    · simp [takeRun, h]

theorem takeRun_all_word : ∀ (as zs : List Char),
    (∀ x ∈ as, isWordChar x = true) → (∀ x ∈ zs.head?, isWordChar x = false) →
    takeRun (as ++ zs) = (as, zs)
  | [], zs, _, hz => by
    cases zs with
    | nil => rfl
    | cons z zs =>
      have := hz z (by simp)
      simp [takeRun, this]
  | a :: as, zs, h, hz => by
    have ha := h a (by simp)
    have := takeRun_all_word as zs (fun x hx => h x (by simp [hx])) hz
    simp [takeRun, ha, this]

theorem grabExtF_nil : ∀ fuel, grabExtF fuel [] = ([], [])
  | 0 => rfl
  | _ + 1 => rfl

theorem grabExtF_spec : ∀ fuel cs, (grabExtF fuel cs).1 ++ (grabExtF fuel cs).2 = cs
  | 0, _ => rfl
  | fuel + 1, [] => rfl
  | fuel + 1, [c] => rfl
  | fuel + 1, c :: d :: rest => by
    by_cases h : isConnector c && isWordChar d
    · have hp := takeRun_spec (d :: rest)
      have hq := grabExtF_spec fuel (takeRun (d :: rest)).2
      simp only [grabExtF, h, if_true]
      simp only [List.cons_append, List.append_assoc, hq, hp, List.cons.injEq,
        true_and]
    · simp [grabExtF, h]

theorem grabExtF_head_conn : ∀ fuel cs, ∀ x ∈ (grabExtF fuel cs).1.head?,
    isConnector x = true
  | 0, cs => by intro x hx; simp [grabExtF] at hx
  | fuel + 1, [] => by intro x hx; simp [grabExtF] at hx
  | fuel + 1, [c] => by intro x hx; simp [grabExtF] at hx
  | fuel + 1, c :: d :: rest => by
    intro x hx
    by_cases h : isConnector c && isWordChar d
    · simp only [grabExtF, h, if_true, List.head?_cons, Option.mem_some_iff] at hx
      subst hx
      have h2 := h
      rw [Bool.and_eq_true] at h2
      exact h2.1
    · simp [grabExtF, h] at hx

theorem grabExtF_chars : ∀ fuel cs, ∀ x ∈ (grabExtF fuel cs).1,
    isWordChar x = true ∨ isConnector x = true
  | 0, cs => by intro x hx; simp [grabExtF] at hx
  | fuel + 1, [] => by intro x hx; simp [grabExtF] at hx
  | fuel + 1, [c] => by intro x hx; simp [grabExtF] at hx
  | fuel + 1, c :: d :: rest => by
    intro x hx
    by_cases h : isConnector c && isWordChar d
    · have h2 := h
      rw [Bool.and_eq_true] at h2
      simp only [grabExtF, h, if_true, List.mem_cons, List.mem_append] at hx
      rcases hx with rfl | hx | hx
      · exact Or.inr h2.1
      · exact Or.inl (takeRun_fst_word (d :: rest) x hx)
      · exact grabExtF_chars fuel (takeRun (d :: rest)).2 x hx
    · simp [grabExtF, h] at hx

theorem grabExtF_congr : ∀ f₁ f₂ cs, cs.length ≤ f₁ → cs.length ≤ f₂ →
    grabExtF f₁ cs = grabExtF f₂ cs
  | 0, f₂, cs, h₁, _ => by
    have : cs = [] := List.length_eq_zero.mp (Nat.le_zero.mp h₁)
    subst this
    rw [grabExtF_nil, grabExtF_nil]
  | f₁ + 1, f₂, [], _, _ => by rw [grabExtF_nil, grabExtF_nil]
  | f₁ + 1, 0, cs, h₁, h₂ => by
    have : cs = [] := List.length_eq_zero.mp (Nat.le_zero.mp h₂)
    subst this
    rw [grabExtF_nil, grabExtF_nil]
  | f₁ + 1, f₂ + 1, [c], _, _ => rfl
  | f₁ + 1, f₂ + 1, c :: d :: rest, h₁, h₂ => by
    by_cases h : isConnector c && isWordChar d
    · have h2 := h
      rw [Bool.and_eq_true] at h2
      have hd := h2.2
      have hlen : (takeRun (d :: rest)).2.length ≤ rest.length := by
        rw [takeRun_cons_word rest hd]
        exact takeRun_snd_length rest
      simp only [List.length_cons] at h₁ h₂
      have := grabExtF_congr f₁ f₂ (takeRun (d :: rest)).2
        (by omega) (by omega)
      simp only [grabExtF, h, if_true, this]
    · simp [grabExtF, h]

theorem grabExtF_cons₂ (fuel : Nat) (c d : Char) (rest : List Char) :
    grabExtF (fuel + 1) (c :: d :: rest) =
      if (isConnector c && isWordChar d) = true then
        (c :: ((takeRun (d :: rest)).1 ++ (grabExtF fuel (takeRun (d :: rest)).2).1),
          (grabExtF fuel (takeRun (d :: rest)).2).2)
      else ([], c :: d :: rest) := rfl

theorem grabExtF_self : ∀ fuel cs f₂, (grabExtF fuel cs).1.length ≤ f₂ →
    grabExtF f₂ (grabExtF fuel cs).1 = ((grabExtF fuel cs).1, [])
  | 0, cs, f₂, _ => by
    show grabExtF f₂ ([] : List Char) = (([] : List Char), [])
    rw [grabExtF_nil]
  | fuel + 1, [], f₂, _ => by
    show grabExtF f₂ ([] : List Char) = (([] : List Char), [])
    rw [grabExtF_nil]
  | fuel + 1, [c], f₂, _ => by
    show grabExtF f₂ ([] : List Char) = (([] : List Char), [])
    rw [grabExtF_nil]
  | fuel + 1, c :: d :: rest, f₂, hf => by
    by_cases h : (isConnector c && isWordChar d) = true
    · have h2 := h
      rw [Bool.and_eq_true] at h2
      have hd := h2.2
      rw [grabExtF_cons₂, if_pos h] at hf ⊢
      rw [takeRun_cons_word rest hd] at hf ⊢
      have hQlen : (grabExtF fuel (takeRun rest).2).1.length ≤ f₂ - 2 + 1 := by
        simp only [List.length_cons, List.length_append] at hf
        omega
      obtain ⟨f₃, rfl⟩ : ∃ f₃, f₂ = f₃ + 2 := by
        refine ⟨f₂ - 2, ?_⟩
        simp only [List.length_cons, List.length_append] at hf
        omega
      have hscan : takeRun (d :: ((takeRun rest).1 ++ (grabExtF fuel (takeRun rest).2).1)) =
          (d :: (takeRun rest).1, (grabExtF fuel (takeRun rest).2).1) := by
        have := takeRun_all_word (d :: (takeRun rest).1) (grabExtF fuel (takeRun rest).2).1
          (by
            intro x hx
            rcases List.mem_cons.mp hx with rfl | hx
            · exact hd
            · exact takeRun_fst_word rest x hx)
          (by
            intro x hx
            exact connector_not_word (grabExtF_head_conn fuel (takeRun rest).2 x hx))
        simpa using this
      have hrec : grabExtF (f₃ + 1) (grabExtF fuel (takeRun rest).2).1 =
          ((grabExtF fuel (takeRun rest).2).1, []) :=
        grabExtF_self fuel (takeRun rest).2 (f₃ + 1) (by omega)
      show grabExtF (f₃ + 1 + 1) (c :: d :: ((takeRun rest).1 ++ (grabExtF fuel (takeRun rest).2).1)) = _
      rw [grabExtF_cons₂, if_pos h, hscan]
      simp only [hrec]
    · have h' : (isConnector c && isWordChar d) = false := Bool.eq_false_iff.mpr h
      rw [grabExtF_cons₂, if_neg h]
      show grabExtF f₂ ([] : List Char) = (([] : List Char), [])
      rw [grabExtF_nil]

theorem tokenizeF_nil : ∀ fuel, tokenizeF fuel [] = []
  | 0 => rfl
  | _ + 1 => rfl

theorem tokenizeF_congr : ∀ f₁ f₂ cs, cs.length ≤ f₁ → cs.length ≤ f₂ →
    tokenizeF f₁ cs = tokenizeF f₂ cs
  | 0, f₂, cs, h₁, _ => by
    have : cs = [] := List.length_eq_zero.mp (Nat.le_zero.mp h₁)
    subst this
    rw [tokenizeF_nil, tokenizeF_nil]
  | f₁ + 1, f₂, [], _, _ => by rw [tokenizeF_nil, tokenizeF_nil]
  | f₁ + 1, 0, cs, h₁, h₂ => by
    have : cs = [] := List.length_eq_zero.mp (Nat.le_zero.mp h₂)
    subst this
    rw [tokenizeF_nil, tokenizeF_nil]
  | f₁ + 1, f₂ + 1, c :: rest, h₁, h₂ => by
    by_cases h : isWordChar c
    · have hlen1 : (takeRun (c :: rest)).2.length ≤ rest.length := by
        rw [takeRun_cons_word rest h]
        exact takeRun_snd_length rest
      have hlen2 : (grabExt (takeRun (c :: rest)).2).2.length ≤
          (takeRun (c :: rest)).2.length := by
        have := congrArg List.length (grabExtF_spec (takeRun (c :: rest)).2.length
          (takeRun (c :: rest)).2)
        simp only [List.length_append] at this
        simp only [grabExt]
        omega
      simp only [List.length_cons] at h₁ h₂
      have := tokenizeF_congr f₁ f₂ (grabExt (takeRun (c :: rest)).2).2
        (by omega) (by omega)
      simp only [tokenizeF, h, if_true, this]
    · have h' : isWordChar c = false := Bool.eq_false_iff.mpr h
      simp only [List.length_cons] at h₁ h₂
      have := tokenizeF_congr f₁ f₂ rest (by omega) (by omega)
      simp only [tokenizeF, h', Bool.false_eq_true, if_false, this]

theorem tokenizeF_cons (fuel : Nat) (c : Char) (rest : List Char) :
    tokenizeF (fuel + 1) (c :: rest) =
      if isWordChar c = true then
        ((takeRun (c :: rest)).1 ++ (grabExt (takeRun (c :: rest)).2).1) ::
          tokenizeF fuel (grabExt (takeRun (c :: rest)).2).2
      else tokenizeF fuel rest := rfl

theorem grabExtF_sep : ∀ fuel (as : List Char) (c : Char) (zs : List Char),
    isWordChar c = false → isConnector c = false → as.length ≤ fuel →
    grabExtF fuel (as ++ c :: zs) =
      ((grabExtF fuel as).1, (grabExtF fuel as).2 ++ c :: zs)
  | 0, as, c, zs, _, _, h => by
    have : as = [] := List.length_eq_zero.mp (Nat.le_zero.mp h)
    subst this
    rfl
  | fuel + 1, [], c, zs, hw, hc, _ => by
    cases zs with
    | nil => rfl
    | cons z zs' =>
      have hg : (isConnector c && isWordChar z) = false := by
        rw [hc, Bool.false_and]
      show grabExtF (fuel + 1) (c :: z :: zs') = _
      rw [grabExtF_cons₂, if_neg (by rw [hg]; exact Bool.false_ne_true)]
      rfl
  | fuel + 1, [a], c, zs, hw, hc, _ => by
    have hg : (isConnector a && isWordChar c) = false := by
      rw [hw, Bool.and_false]
    show grabExtF (fuel + 1) (a :: c :: zs) = _
    rw [grabExtF_cons₂, if_neg (by rw [hg]; exact Bool.false_ne_true)]
    rfl
  | fuel + 1, a :: b :: as', c, zs, hw, hc, hlen => by
    by_cases h : (isConnector a && isWordChar b) = true
    · have h2 := h
      rw [Bool.and_eq_true] at h2
      have hb := h2.2
      show grabExtF (fuel + 1) (a :: b :: (as' ++ c :: zs)) = _
      rw [grabExtF_cons₂, if_pos h, grabExtF_cons₂, if_pos h]
      rw [takeRun_cons_word (as' ++ c :: zs) hb, takeRun_cons_word as' hb]
      rw [takeRun_sep as' c zs hw]
      have hIH := grabExtF_sep fuel (takeRun as').2 c zs hw hc
        (by
          have := takeRun_snd_length as'
          simp only [List.length_cons] at hlen
          omega)
      simp only [hIH, List.cons_append, List.append_assoc]
    · show grabExtF (fuel + 1) (a :: b :: (as' ++ c :: zs)) = _
      rw [grabExtF_cons₂, if_neg h, grabExtF_cons₂, if_neg h]
      rfl

theorem findWords_nil : findWords [] = [] := rfl

theorem grabExt_self (cs : List Char) :
    grabExt (grabExt cs).1 = ((grabExt cs).1, []) :=
  grabExtF_self cs.length cs (grabExt cs).1.length (le_refl _)

theorem findWords_token (c : Char) (A Q1 : List Char) (h : isWordChar c = true)
    (hA : ∀ x ∈ A, isWordChar x = true)
    (hQhead : ∀ x ∈ Q1.head?, isConnector x = true)
    (hQself : grabExt Q1 = (Q1, [])) :
    findWords (c :: (A ++ Q1)) = [c :: (A ++ Q1)] := by
  show tokenizeF (c :: (A ++ Q1)).length (c :: (A ++ Q1)) = [c :: (A ++ Q1)]
  simp only [List.length_cons]
  rw [tokenizeF_cons, if_pos h]
  have hscan : takeRun (c :: (A ++ Q1)) = (c :: A, Q1) := by
    have := takeRun_all_word (c :: A) Q1
      (by
        intro x hx
        rcases List.mem_cons.mp hx with rfl | hx
        · exact h
        · exact hA x hx)
      (fun x hx => connector_not_word (hQhead x hx))
    simpa using this
  have h1 : (takeRun (c :: (A ++ Q1))).1 = c :: A := by rw [hscan]
  have h2 : (takeRun (c :: (A ++ Q1))).2 = Q1 := by rw [hscan]
  rw [h1, h2, hQself]
  show ((c :: A) ++ Q1) :: tokenizeF (A ++ Q1).length [] = [c :: (A ++ Q1)]
  rw [tokenizeF_nil]
  simp

theorem tokenizeF_good : ∀ fuel cs, ∀ t ∈ tokenizeF fuel cs,
    t ≠ [] ∧ (∀ x ∈ t, isWordChar x = true ∨ isConnector x = true) ∧
    findWords t = [t]
  | 0, cs => by intro t ht; simp [tokenizeF] at ht
  | fuel + 1, [] => by intro t ht; simp [tokenizeF] at ht
  | fuel + 1, c :: rest => by
    intro t ht
    by_cases h : isWordChar c = true
    · rw [tokenizeF_cons, if_pos h] at ht
      rcases List.mem_cons.mp ht with rfl | ht
      · have htok : (takeRun (c :: rest)).1 ++ (grabExt (takeRun (c :: rest)).2).1 =
            c :: ((takeRun rest).1 ++ (grabExt (takeRun rest).2).1) := by
          rw [takeRun_cons_word rest h]
          rfl
        rw [htok]
        refine ⟨by simp, ?_, ?_⟩
        · intro x hx
          rcases List.mem_cons.mp hx with rfl | hx
          · exact Or.inl h
          · rcases List.mem_append.mp hx with hx | hx
            · exact Or.inl (takeRun_fst_word rest x hx)
            · exact grabExtF_chars _ _ x hx
        · exact findWords_token c (takeRun rest).1 (grabExt (takeRun rest).2).1 h
            (takeRun_fst_word rest)
            (fun x hx => grabExtF_head_conn _ _ x hx)
            (grabExt_self (takeRun rest).2)
      · exact tokenizeF_good fuel (grabExt (takeRun (c :: rest)).2).2 t ht
    · rw [tokenizeF_cons, if_neg h] at ht
      exact tokenizeF_good fuel rest t ht

theorem findWords_good (cs : List Char) : ∀ t ∈ findWords cs,
    t ≠ [] ∧ (∀ x ∈ t, isWordChar x = true ∨ isConnector x = true) ∧
    findWords t = [t] :=
  tokenizeF_good cs.length cs

theorem findWords_cons_word {c : Char} (rest : List Char) (h : isWordChar c = true) :
    findWords (c :: rest) =
      ((takeRun (c :: rest)).1 ++ (grabExt (takeRun (c :: rest)).2).1) ::
        findWords (grabExt (takeRun (c :: rest)).2).2 := by
  show tokenizeF (rest.length + 1) (c :: rest) = _
  rw [tokenizeF_cons, if_pos h]
  congr 1
  have hle : (grabExt (takeRun (c :: rest)).2).2.length ≤ rest.length := by
    have e2 : (takeRun (c :: rest)).2 = (takeRun rest).2 := by
      rw [takeRun_cons_word rest h]
    rw [e2]
    have h1 := takeRun_snd_length rest
    have h2 := congrArg List.length
      (grabExtF_spec (takeRun rest).2.length (takeRun rest).2)
    simp only [List.length_append] at h2
    show (grabExtF (takeRun rest).2.length (takeRun rest).2).2.length ≤ rest.length
    omega
  exact tokenizeF_congr rest.length _ _ hle (le_refl _)

theorem findWords_cons_skip {c : Char} (rest : List Char) (h : isWordChar c = false) :
    findWords (c :: rest) = findWords rest := by
  show tokenizeF (rest.length + 1) (c :: rest) = _
  rw [tokenizeF_cons, if_neg (by rw [h]; exact Bool.false_ne_true)]
  exact tokenizeF_congr rest.length rest.length rest (le_refl _) (le_refl _)

theorem remainder_length (cs : List Char) :
    (grabExt (takeRun cs).2).2.length ≤ cs.length := by
  have h1 := takeRun_snd_length cs
  have h2 := congrArg List.length
    (grabExtF_spec (takeRun cs).2.length (takeRun cs).2)
  simp only [List.length_append] at h2
  show (grabExtF (takeRun cs).2.length (takeRun cs).2).2.length ≤ cs.length
  omega

theorem findWords_sep : ∀ (as : List Char) (c : Char) (zs : List Char),
    isWordChar c = false → isConnector c = false →
    findWords (as ++ c :: zs) = findWords as ++ findWords zs
  | [], c, zs, hw, _ => by
    rw [List.nil_append, findWords_nil, List.nil_append, findWords_cons_skip zs hw]
  | a :: as', c, zs, hw, hc => by
    by_cases h : isWordChar a = true
    · have hTR : takeRun (a :: (as' ++ c :: zs)) =
          (a :: (takeRun as').1, (takeRun as').2 ++ c :: zs) := by
        rw [takeRun_cons_word _ h, takeRun_sep as' c zs hw]
      have hTR1 : (takeRun (a :: (as' ++ c :: zs))).1 = a :: (takeRun as').1 := by
        rw [hTR]
      have hTR2 : (takeRun (a :: (as' ++ c :: zs))).2 = (takeRun as').2 ++ c :: zs := by
        rw [hTR]
      have hGE : grabExt ((takeRun as').2 ++ c :: zs) =
          ((grabExt (takeRun as').2).1, (grabExt (takeRun as').2).2 ++ c :: zs) := by
        show grabExtF ((takeRun as').2 ++ c :: zs).length ((takeRun as').2 ++ c :: zs) = _
        rw [grabExtF_sep _ _ c zs hw hc (by simp [List.length_append])]
        rw [grabExtF_congr ((takeRun as').2 ++ c :: zs).length
          (takeRun as').2.length ((takeRun as').2)
          (by simp [List.length_append]) (le_refl _)]
        rfl
      have hGE1 : (grabExt ((takeRun as').2 ++ c :: zs)).1 =
          (grabExt (takeRun as').2).1 := by rw [hGE]
      have hGE2 : (grabExt ((takeRun as').2 ++ c :: zs)).2 =
          (grabExt (takeRun as').2).2 ++ c :: zs := by rw [hGE]
      have step : findWords ((a :: as') ++ c :: zs) =
          ((a :: (takeRun as').1) ++ (grabExt (takeRun as').2).1) ::
            findWords ((grabExt (takeRun as').2).2 ++ c :: zs) := by
        show findWords (a :: (as' ++ c :: zs)) = _
        rw [findWords_cons_word _ h, hTR1, hTR2, hGE1, hGE2]
      have hrec := findWords_sep (grabExt (takeRun as').2).2 c zs hw hc
      have hRHS : findWords (a :: as') =
          ((a :: (takeRun as').1) ++ (grabExt (takeRun as').2).1) ::
            findWords (grabExt (takeRun as').2).2 := by
        rw [findWords_cons_word _ h]
        have e1 : (takeRun (a :: as')).1 = a :: (takeRun as').1 := by
          rw [takeRun_cons_word as' h]
        have e2 : (takeRun (a :: as')).2 = (takeRun as').2 := by
          rw [takeRun_cons_word as' h]
        rw [e1, e2]
      rw [step, hrec, hRHS]
      simp
    · have h' : isWordChar a = false := Bool.eq_false_iff.mpr h
      show findWords (a :: (as' ++ c :: zs)) = _
      rw [findWords_cons_skip _ h', findWords_sep as' c zs hw hc,
        findWords_cons_skip as' h']
termination_by as _ _ => as.length
decreasing_by
· have h1 := remainder_length as'
  simp only [List.length_cons]
  omega
· simp only [List.length_cons]
  omega

theorem findWords_joinWith (c : Char) (hw : isWordChar c = false)
    (hc : isConnector c = false) :
    ∀ parts : List (List Char),
      findWords (joinWith [c] parts) = (parts.map findWords).flatten
  | [] => by simp [joinWith, findWords_nil]
  | [t] => by simp [joinWith]
  | t :: t₂ :: ts => by
    have hj : joinWith [c] (t :: t₂ :: ts) = t ++ c :: joinWith [c] (t₂ :: ts) := by
      show t ++ [c] ++ joinWith [c] (t₂ :: ts) = _
      simp
    rw [hj, findWords_sep t c _ hw hc, findWords_joinWith c hw hc (t₂ :: ts)]
    simp

theorem findWords_join_of_good (c : Char) (hw : isWordChar c = false)
    (hc : isConnector c = false) (ts : List (List Char))
    (h : ∀ t ∈ ts, findWords t = [t]) :
    findWords (joinWith [c] ts) = ts := by
  rw [findWords_joinWith c hw hc ts]
  induction ts with
  | nil => rfl
  | cons t ts ih =>
    simp only [List.map_cons, List.flatten_cons, h t (by simp)]
    rw [ih (fun u hu => h u (by simp [hu]))]
    rfl

/-! ### Strip lemmas -/

theorem dropWhile_head_false (p : Char → Bool) :
    ∀ l : List Char, ∀ x ∈ (l.dropWhile p).head?, p x = false
  | [] => by intro x hx; simp at hx
  | c :: l => by
    intro x hx
    by_cases h : p c = true
    · rw [List.dropWhile_cons_of_pos h] at hx
      exact dropWhile_head_false p l x hx
    · rw [List.dropWhile_cons_of_neg h] at hx
      simp only [List.head?_cons, Option.mem_some_iff] at hx
      subst hx
      exact Bool.eq_false_iff.mpr h

theorem dropWhile_eq_self_of_head (p : Char → Bool) (l : List Char)
    (h : ∀ x ∈ l.head?, p x = false) : l.dropWhile p = l := by
  cases l with
  | nil => rfl
  | cons c l =>
    have hc := h c (by simp)
    rw [List.dropWhile_cons_of_neg (by rw [hc]; exact Bool.false_ne_true)]

theorem prefix_head_mem {l₁ l₂ : List Char} (h : l₁ <+: l₂) :
    ∀ x ∈ l₁.head?, x ∈ l₂.head? := by
  obtain ⟨t, rfl⟩ := h
  intro x hx
  cases l₁ with
  | nil => simp at hx
  | cons a l => simpa using hx

theorem rtrimChars_prefix_self (l : List Char) : rtrimChars l <+: l := by
  have h : (l.reverse.dropWhile isPySpace).reverse <+: l.reverse.reverse :=
    List.reverse_prefix.mpr (List.dropWhile_suffix isPySpace)
  rwa [List.reverse_reverse] at h

theorem rtrim_last (l : List Char) :
    ∀ x ∈ (rtrimChars l).getLast?, isPySpace x = false := by
  intro x hx
  unfold rtrimChars at hx
  rw [List.getLast?_reverse] at hx
  exact dropWhile_head_false isPySpace l.reverse x hx

theorem trimChars_last (cs : List Char) :
    ∀ x ∈ (trimChars cs).getLast?, isPySpace x = false :=
  fun x hx => rtrim_last _ x hx

theorem trimChars_head (cs : List Char) :
    ∀ x ∈ (trimChars cs).head?, isPySpace x = false := by
  intro x hx
  unfold trimChars at hx
  have hpre := rtrimChars_prefix_self (cs.dropWhile isPySpace)
  have hmem := prefix_head_mem hpre x hx
  exact dropWhile_head_false isPySpace cs x hmem

theorem rtrim_eq_self (l : List Char)
    (h : ∀ x ∈ l.getLast?, isPySpace x = false) : rtrimChars l = l := by
  unfold rtrimChars
  rw [dropWhile_eq_self_of_head isPySpace l.reverse (by
    intro x hx
    rw [List.head?_reverse] at hx
    exact h x hx), List.reverse_reverse]

theorem trimChars_eq_self (cs : List Char)
    (hh : ∀ x ∈ cs.head?, isPySpace x = false)
    (hl : ∀ x ∈ cs.getLast?, isPySpace x = false) : trimChars cs = cs := by
  unfold trimChars
  rw [dropWhile_eq_self_of_head isPySpace cs hh]
  exact rtrim_eq_self cs hl

/-! ### Single-word collapse lemmas -/

theorem crwGo_chain : ∀ (ts : List (List Char)) (last : List Char),
    NoAdjDup (last :: crwGo last ts)
  | [], last => List.chain'_singleton last
  | t :: ts, last => by
    by_cases h : casefoldTok t = casefoldTok last
    · show NoAdjDup (last :: crwGo last (t :: ts))
      rw [show crwGo last (t :: ts) = crwGo last ts from by
        simp only [crwGo, if_pos h]]
      exact crwGo_chain ts last
    · show NoAdjDup (last :: crwGo last (t :: ts))
      rw [show crwGo last (t :: ts) = t :: crwGo t ts from by
        simp only [crwGo, if_neg h]]
      exact List.chain'_cons.mpr ⟨fun e => h e.symm, crwGo_chain ts t⟩

theorem crw_noAdjDup (ts : List (List Char)) :
    NoAdjDup (collapseRepeatedWords ts) := by
  cases ts with
  | nil => exact List.chain'_nil
  | cons t ts => exact crwGo_chain ts t

theorem crwGo_id : ∀ (ts : List (List Char)) (last : List Char),
    NoAdjDup (last :: ts) → crwGo last ts = ts
  | [], _, _ => rfl
  | t :: ts, last, h => by
    unfold NoAdjDup at h
    rw [List.chain'_cons] at h
    have hne : casefoldTok t ≠ casefoldTok last := fun e => h.1 e.symm
    simp only [crwGo, if_neg hne]
    rw [crwGo_id ts t h.2]

theorem crw_id (ts : List (List Char)) (h : NoAdjDup ts) :
    collapseRepeatedWords ts = ts := by
  cases ts with
  | nil => rfl
  | cons t ts =>
    show t :: crwGo t ts = t :: ts
    rw [crwGo_id ts t h]

theorem crwGo_sublist : ∀ (ts : List (List Char)) (last : List Char),
    (crwGo last ts).Sublist ts
  | [], _ => List.Sublist.refl []
  | t :: ts, last => by
    by_cases h : casefoldTok t = casefoldTok last
    · simp only [crwGo, if_pos h]
      exact (crwGo_sublist ts last).cons t
    · simp only [crwGo, if_neg h]
      exact (crwGo_sublist ts t).cons₂ t

theorem crw_sublist (ts : List (List Char)) :
    (collapseRepeatedWords ts).Sublist ts := by
  cases ts with
  | nil => exact List.Sublist.refl []
  | cons t ts => exact (crwGo_sublist ts t).cons₂ t

/-! ### Phrase-collapse skip-loop lemmas -/

theorem skipRepsF_suffix : ∀ fuel n first ws, skipRepsF fuel n first ws <:+ ws
  | 0, _, _, ws => List.suffix_refl ws
  | fuel + 1, n, first, ws => by
    by_cases h : 0 < n ∧ n ≤ ws.length ∧ lowerTokens (ws.take n) = first
    · simp only [skipRepsF, if_pos h]
      exact (skipRepsF_suffix fuel n first (ws.drop n)).trans
        (List.drop_suffix n ws)
    · simp only [skipRepsF, if_neg h]
      exact List.suffix_refl ws

theorem skipRepsF_length (fuel n : Nat) (first ws : List (List Char)) :
    (skipRepsF fuel n first ws).length ≤ ws.length :=
  (skipRepsF_suffix fuel n first ws).sublist.length_le

theorem skipRepsF_decomp : ∀ fuel n (first : List (List Char)) ws, ∃ pre,
    ws = pre ++ skipRepsF fuel n first ws ∧
    (pre = [] ∨ (lowerTokens pre).getLast? = first.getLast?)
  | 0, n, first, ws => ⟨[], rfl, Or.inl rfl⟩
  | fuel + 1, n, first, ws => by
    by_cases h : 0 < n ∧ n ≤ ws.length ∧ lowerTokens (ws.take n) = first
    · simp only [skipRepsF, if_pos h]
      obtain ⟨pre, hpre, hlast⟩ := skipRepsF_decomp fuel n first (ws.drop n)
      refine ⟨ws.take n ++ pre, ?_, Or.inr ?_⟩
      · rw [List.append_assoc, ← hpre, List.take_append_drop]
      · by_cases hp : pre = []
        · subst hp
          rw [List.append_nil, ← h.2.2]
        · have hlp : lowerTokens pre ≠ [] := by
            simp only [lowerTokens, ne_eq, List.map_eq_nil_iff]
            exact hp
          rcases hlast with rfl | hlast
          · exact absurd rfl hp
          · show (lowerTokens (ws.take n ++ pre)).getLast? = first.getLast?
            rw [show lowerTokens (ws.take n ++ pre) =
              lowerTokens (ws.take n) ++ lowerTokens pre from
              List.map_append casefoldTok _ _]
            rw [List.getLast?_append_of_ne_nil _ hlp]
            exact hlast
    · exact ⟨[], by simp only [skipRepsF, if_neg h, List.nil_append], Or.inl rfl⟩

/-! ### Phrase-collapse sweep lemmas -/

theorem scanPassF_cons (fuel n : Nat) (w : List Char) (rest : List (List Char)) :
    scanPassF (fuel + 1) n (w :: rest) =
      if 0 < n ∧ 2 * n ≤ (w :: rest).length ∧
          lowerTokens ((w :: rest).take n) =
            lowerTokens (((w :: rest).drop n).take n) then
        ((w :: rest).take n ++
          (scanPassF fuel n (skipReps n (lowerTokens ((w :: rest).take n))
            ((w :: rest).drop n))).1, true)
      else
        (w :: (scanPassF fuel n rest).1, (scanPassF fuel n rest).2) := rfl

theorem scanPassF_head : ∀ fuel n ws, (scanPassF fuel n ws).1.head? = ws.head?
  | 0, _, _ => rfl
  | _ + 1, _, [] => rfl
  | fuel + 1, n, w :: rest => by
    rw [scanPassF_cons]
    by_cases h : 0 < n ∧ 2 * n ≤ (w :: rest).length ∧
        lowerTokens ((w :: rest).take n) =
          lowerTokens (((w :: rest).drop n).take n)
    · rw [if_pos h]
      obtain ⟨m, rfl⟩ : ∃ m, n = m + 1 := ⟨n - 1, by omega⟩
      simp [List.take_succ_cons]
    · rw [if_neg h]
      rfl

theorem skipReps_le (n : Nat) (first ws : List (List Char)) :
    (skipReps n first ws).length ≤ ws.length :=
  skipRepsF_length _ n first ws

theorem scanPassF_length : ∀ fuel n ws, (scanPassF fuel n ws).1.length ≤ ws.length
  | 0, _, _ => le_refl _
  | _ + 1, _, [] => le_refl _
  | fuel + 1, n, w :: rest => by
    rw [scanPassF_cons]
    by_cases h : 0 < n ∧ 2 * n ≤ (w :: rest).length ∧
        lowerTokens ((w :: rest).take n) =
          lowerTokens (((w :: rest).drop n).take n)
    · rw [if_pos h]
      obtain ⟨hn, hlen, _⟩ := h
      have h1 := scanPassF_length fuel n
        (skipReps n (lowerTokens ((w :: rest).take n)) ((w :: rest).drop n))
      have h2 := skipReps_le n (lowerTokens ((w :: rest).take n))
        ((w :: rest).drop n)
      simp only [List.length_append, List.length_take, List.length_drop] at *
      omega
    · rw [if_neg h]
      have h1 := scanPassF_length fuel n rest
      simp only [List.length_cons]
      omega

theorem scanPassF_lt_of_true : ∀ fuel n ws, (scanPassF fuel n ws).2 = true →
    (scanPassF fuel n ws).1.length < ws.length
  | 0, _, ws, h => by simp [scanPassF] at h
  | _ + 1, _, [], h => by simp [scanPassF] at h
  | fuel + 1, n, w :: rest, h => by
    rw [scanPassF_cons] at h ⊢
    by_cases hg : 0 < n ∧ 2 * n ≤ (w :: rest).length ∧
        lowerTokens ((w :: rest).take n) =
          lowerTokens (((w :: rest).drop n).take n)
    · rw [if_pos hg]
      obtain ⟨hn, hlen, heq⟩ := hg
      have hskip : skipReps n (lowerTokens ((w :: rest).take n))
          ((w :: rest).drop n) =
          skipRepsF ((w :: rest).drop n).length n
            (lowerTokens ((w :: rest).take n))
            (((w :: rest).drop n).drop n) := by
        unfold skipReps
        rw [show skipRepsF (((w :: rest).drop n).length + 1) n
          (lowerTokens ((w :: rest).take n)) ((w :: rest).drop n) =
          if 0 < n ∧ n ≤ ((w :: rest).drop n).length ∧
              lowerTokens (((w :: rest).drop n).take n) =
                lowerTokens ((w :: rest).take n) then
            skipRepsF ((w :: rest).drop n).length n
              (lowerTokens ((w :: rest).take n)) (((w :: rest).drop n).drop n)
          else (w :: rest).drop n from rfl]
        rw [if_pos ⟨hn, by simp only [List.length_drop]; omega, heq.symm⟩]
      rw [hskip]
      have h1 := scanPassF_length fuel n
        (skipRepsF ((w :: rest).drop n).length n
          (lowerTokens ((w :: rest).take n)) (((w :: rest).drop n).drop n))
      have h2 := skipRepsF_length ((w :: rest).drop n).length n
        (lowerTokens ((w :: rest).take n)) (((w :: rest).drop n).drop n)
      simp only [List.length_append, List.length_take, List.length_drop] at *
      omega
    · rw [if_neg hg] at h ⊢
      have h1 := scanPassF_lt_of_true fuel n rest h
      simp only [List.length_cons]
      omega

theorem scanPassF_sublist : ∀ fuel n ws, (scanPassF fuel n ws).1.Sublist ws
  | 0, _, ws => List.Sublist.refl ws
  | _ + 1, _, [] => List.Sublist.refl []
  | fuel + 1, n, w :: rest => by
    rw [scanPassF_cons]
    by_cases h : 0 < n ∧ 2 * n ≤ (w :: rest).length ∧
        lowerTokens ((w :: rest).take n) =
          lowerTokens (((w :: rest).drop n).take n)
    · rw [if_pos h]
      have h1 := scanPassF_sublist fuel n
        (skipReps n (lowerTokens ((w :: rest).take n)) ((w :: rest).drop n))
      have h2 : (skipReps n (lowerTokens ((w :: rest).take n))
          ((w :: rest).drop n)).Sublist ((w :: rest).drop n) :=
        (skipRepsF_suffix _ n _ _).sublist
      have h3 := (h1.trans h2).append_left ((w :: rest).take n)
      rw [List.take_append_drop n (w :: rest)] at h3
      exact h3
    · rw [if_neg h]
      exact (scanPassF_sublist fuel n rest).cons₂ w

theorem scanPassF_noAdjDup : ∀ fuel n ws, NoAdjDup ws →
    NoAdjDup (scanPassF fuel n ws).1
  | 0, _, ws, h => h
  | _ + 1, _, [], h => h
  | fuel + 1, n, w :: rest, hchain => by
    rw [scanPassF_cons]
    by_cases h : 0 < n ∧ 2 * n ≤ (w :: rest).length ∧
        lowerTokens ((w :: rest).take n) =
          lowerTokens (((w :: rest).drop n).take n)
    · rw [if_pos h]
      obtain ⟨hn, hlen, heq⟩ := h
      have hskip : skipReps n (lowerTokens ((w :: rest).take n))
          ((w :: rest).drop n) =
          skipRepsF ((w :: rest).drop n).length n
            (lowerTokens ((w :: rest).take n))
            (((w :: rest).drop n).drop n) := by
        unfold skipReps
        rw [show skipRepsF (((w :: rest).drop n).length + 1) n
          (lowerTokens ((w :: rest).take n)) ((w :: rest).drop n) =
          if 0 < n ∧ n ≤ ((w :: rest).drop n).length ∧
              lowerTokens (((w :: rest).drop n).take n) =
                lowerTokens ((w :: rest).take n) then
            skipRepsF ((w :: rest).drop n).length n
              (lowerTokens ((w :: rest).take n)) (((w :: rest).drop n).drop n)
          else (w :: rest).drop n from rfl]
        rw [if_pos ⟨hn, by simp only [List.length_drop]; omega, heq.symm⟩]
      obtain ⟨pre, hpre, hlast⟩ := skipRepsF_decomp ((w :: rest).drop n).length n
        (lowerTokens ((w :: rest).take n)) (((w :: rest).drop n).drop n)
      set first := lowerTokens ((w :: rest).take n) with hfirst
      set rem := skipRepsF ((w :: rest).drop n).length n first
        (((w :: rest).drop n).drop n) with hrem
      have hsplit : (w :: rest) = (w :: rest).take n ++
          ((((w :: rest).drop n).take n ++ pre) ++ rem) := by
        conv_lhs => rw [← List.take_append_drop n (w :: rest)]
        congr 1
        conv_lhs => rw [← List.take_append_drop n ((w :: rest).drop n)]
        rw [hpre, List.append_assoc]
      have hchain2 := hchain
      unfold NoAdjDup at hchain2
      rw [hsplit, List.chain'_append] at hchain2
      obtain ⟨c1, c23, _⟩ := hchain2
      rw [List.chain'_append] at c23
      obtain ⟨cpt, crem, hjunc⟩ := c23
      have hIH := scanPassF_noAdjDup fuel n
        (skipReps n first ((w :: rest).drop n)) (by rw [hskip]; exact crem)
      unfold NoAdjDup
      rw [List.chain'_append]
      refine ⟨c1, hIH, ?_⟩
      intro u hu y hy
      rw [scanPassF_head, hskip] at hy
      have hpt_lastlow : (lowerTokens (((w :: rest).drop n).take n ++ pre)).getLast? =
          first.getLast? := by
        by_cases hp : pre = []
        · subst hp
          rw [List.append_nil, ← heq]
        · rw [show lowerTokens (((w :: rest).drop n).take n ++ pre) =
            lowerTokens (((w :: rest).drop n).take n) ++ lowerTokens pre from
            List.map_append casefoldTok _ _]
          have hlp : lowerTokens pre ≠ [] := by
            simp only [lowerTokens, ne_eq, List.map_eq_nil_iff]
            exact hp
          rw [List.getLast?_append_of_ne_nil _ hlp]
          rcases hlast with rfl | hlast
          · exact absurd rfl hp
          · exact hlast
      have hu_low : first.getLast? = some (casefoldTok u) := by
        rw [hfirst]
        show (List.map casefoldTok ((w :: rest).take n)).getLast? = _
        rw [List.getLast?_map]
        rw [Option.mem_def] at hu
        rw [hu]
        rfl
      have hpt_ne : (((w :: rest).drop n).take n ++ pre) ≠ [] := by
        have : n ≤ ((w :: rest).drop n).length := by
          simp only [List.length_drop]
          omega
        intro hnil
        rcases List.append_eq_nil.mp hnil with ⟨h1, _⟩
        have := congrArg List.length h1
        simp only [List.length_take, List.length_nil] at this
        omega
      obtain ⟨x, hx⟩ := List.getLast?_isSome.mpr hpt_ne |> Option.isSome_iff_exists.mp
      have hx_low : (lowerTokens (((w :: rest).drop n).take n ++ pre)).getLast? =
          some (casefoldTok x) := by
        show (List.map casefoldTok _).getLast? = _
        rw [List.getLast?_map, hx]
        rfl
      have hxy := hjunc x (by rw [Option.mem_def]; exact hx) y hy
      have hux : casefoldTok u = casefoldTok x := by
        have e1 := hpt_lastlow
        rw [hx_low, hu_low] at e1
        exact (Option.some.injEq _ _ ▸ e1).symm
      rw [hux]
      exact hxy
    · rw [if_neg h]
      have hchain2 := hchain
      unfold NoAdjDup at hchain2
      rw [List.chain'_cons'] at hchain2
      refine List.chain'_cons'.mpr ⟨?_, scanPassF_noAdjDup fuel n rest hchain2.2⟩
      intro y hy
      rw [scanPassF_head] at hy
      exact hchain2.1 y hy

/-! ### Stage, pass and loop lemmas -/

theorem ngramStage_snd_false {n : Nat} {ws : List (List Char)}
    (h : (ngramStage n ws).2 = false) : (ngramStage n ws).1 = ws := by
  unfold ngramStage at *
  by_cases hl : ws.length < 2 * n
  · rw [if_pos hl]
  · rw [if_neg hl] at h ⊢
    by_cases hs : (scanPass n ws).2
    · rw [if_pos hs] at h
      simp at h
    · rw [if_neg hs]

theorem ngramStage_lt {n : Nat} {ws : List (List Char)}
    (h : (ngramStage n ws).2 = true) : (ngramStage n ws).1.length < ws.length := by
  unfold ngramStage at *
  by_cases hl : ws.length < 2 * n
  · rw [if_pos hl] at h
    simp at h
  · rw [if_neg hl] at h ⊢
    by_cases hs : (scanPass n ws).2
    · rw [if_pos hs]
      exact scanPassF_lt_of_true _ n ws hs
    · rw [if_neg hs] at h
      simp at h

theorem ngramStage_length (n : Nat) (ws : List (List Char)) :
    (ngramStage n ws).1.length ≤ ws.length := by
  by_cases h : (ngramStage n ws).2
  · exact le_of_lt (ngramStage_lt h)
  · rw [ngramStage_snd_false (Bool.eq_false_iff.mpr h)]

theorem ngramStage_sublist (n : Nat) (ws : List (List Char)) :
    (ngramStage n ws).1.Sublist ws := by
  unfold ngramStage
  by_cases hl : ws.length < 2 * n
  · rw [if_pos hl]
  · rw [if_neg hl]
    by_cases hs : (scanPass n ws).2
    · rw [if_pos hs]
      exact scanPassF_sublist _ n ws
    · rw [if_neg hs]

theorem ngramStage_noAdjDup (n : Nat) (ws : List (List Char))
    (h : NoAdjDup ws) : NoAdjDup (ngramStage n ws).1 := by
  unfold ngramStage
  by_cases hl : ws.length < 2 * n
  · rw [if_pos hl]
    exact h
  · rw [if_neg hl]
    by_cases hs : (scanPass n ws).2
    · rw [if_pos hs]
      exact scanPassF_noAdjDup _ n ws h
    · rw [if_neg hs]
      exact h

theorem ngramPass_snd_false {ws : List (List Char)}
    (h : (ngramPass ws).2 = false) : (ngramPass ws).1 = ws := by
  unfold ngramPass at *
  simp only [Bool.or_eq_false_iff] at h
  obtain ⟨⟨h4, h3⟩, h2⟩ := h
  rw [ngramStage_snd_false h2, ngramStage_snd_false h3, ngramStage_snd_false h4]

theorem ngramPass_lt {ws : List (List Char)}
    (h : (ngramPass ws).2 = true) : (ngramPass ws).1.length < ws.length := by
  unfold ngramPass at *
  show (ngramStage 2 (ngramStage 3 (ngramStage 4 ws).1).1).1.length < ws.length
  have l4 := ngramStage_length 4 ws
  have l3 := ngramStage_length 3 (ngramStage 4 ws).1
  have l2 := ngramStage_length 2 (ngramStage 3 (ngramStage 4 ws).1).1
  simp only [Bool.or_eq_true] at h
  rcases h with (h4 | h3) | h2
  · have := ngramStage_lt h4
    omega
  · have := ngramStage_lt h3
    omega
  · have := ngramStage_lt h2
    omega

theorem ngramPass_sublist (ws : List (List Char)) :
    (ngramPass ws).1.Sublist ws := by
  unfold ngramPass
  exact ((ngramStage_sublist 2 _).trans (ngramStage_sublist 3 _)).trans
    (ngramStage_sublist 4 ws)

theorem ngramPass_noAdjDup (ws : List (List Char)) (h : NoAdjDup ws) :
    NoAdjDup (ngramPass ws).1 := by
  unfold ngramPass
  exact ngramStage_noAdjDup 2 _ (ngramStage_noAdjDup 3 _ (ngramStage_noAdjDup 4 ws h))

theorem collapseLoopF_step (fuel : Nat) (ws : List (List Char)) :
    collapseLoopF (fuel + 1) ws =
      if (ngramPass ws).2 then collapseLoopF fuel (ngramPass ws).1 else ws := rfl

theorem collapseLoopF_sublist : ∀ fuel ws, (collapseLoopF fuel ws).Sublist ws
  | 0, ws => List.Sublist.refl ws
  | fuel + 1, ws => by
    rw [collapseLoopF_step]
    by_cases h : (ngramPass ws).2
    · rw [if_pos h]
      exact (collapseLoopF_sublist fuel (ngramPass ws).1).trans
        (ngramPass_sublist ws)
    · rw [if_neg h]

theorem collapseLoopF_noAdjDup : ∀ fuel ws, NoAdjDup ws →
    NoAdjDup (collapseLoopF fuel ws)
  | 0, _, h => h
  | fuel + 1, ws, h => by
    rw [collapseLoopF_step]
    by_cases hc : (ngramPass ws).2
    · rw [if_pos hc]
      exact collapseLoopF_noAdjDup fuel (ngramPass ws).1 (ngramPass_noAdjDup ws h)
    · rw [if_neg hc]
      exact h

theorem collapseLoopF_fix : ∀ fuel ws, ws.length < fuel →
    ngramPass (collapseLoopF fuel ws) = (collapseLoopF fuel ws, false)
  | 0, ws, h => absurd h (by omega)
  | fuel + 1, ws, h => by
    rw [collapseLoopF_step]
    by_cases hc : (ngramPass ws).2
    · rw [if_pos hc]
      exact collapseLoopF_fix fuel (ngramPass ws).1
        (by
          have := ngramPass_lt hc
          omega)
    · rw [if_neg hc]
      have h1 : (ngramPass ws).1 = ws := ngramPass_snd_false (Bool.eq_false_iff.mpr hc)
      have h2 : (ngramPass ws).2 = false := Bool.eq_false_iff.mpr hc
      calc ngramPass ws = ((ngramPass ws).1, (ngramPass ws).2) := rfl
        _ = (ws, false) := by rw [h1, h2]

theorem collapseRepeatedNgrams_sublist (ts : List (List Char)) :
    (collapseRepeatedNgrams ts).Sublist ts := by
  unfold collapseRepeatedNgrams
  by_cases h : ts.length < 2
  · rw [if_pos h]
  · rw [if_neg h]
    exact collapseLoopF_sublist (ts.length + 1) ts

theorem collapseRepeatedNgrams_noAdjDup (ts : List (List Char))
    (h : NoAdjDup ts) : NoAdjDup (collapseRepeatedNgrams ts) := by
  unfold collapseRepeatedNgrams
  by_cases hl : ts.length < 2
  · rw [if_pos hl]
    exact h
  · rw [if_neg hl]
    exact collapseLoopF_noAdjDup (ts.length + 1) ts h

theorem collapseRepeatedNgrams_idem (ts : List (List Char)) :
    collapseRepeatedNgrams (collapseRepeatedNgrams ts) = collapseRepeatedNgrams ts := by
  unfold collapseRepeatedNgrams
  by_cases hl : ts.length < 2
  · rw [if_pos hl, if_pos hl]
  · rw [if_neg hl]
    set r := collapseLoopF (ts.length + 1) ts with hr
    have hfix : ngramPass r = (r, false) :=
      collapseLoopF_fix (ts.length + 1) ts (by omega)
    by_cases hl2 : r.length < 2
    · rw [if_pos hl2]
    · rw [if_neg hl2]
      rw [collapseLoopF_step, hfix]
      rfl

theorem collapseTokens_idem (ts : List (List Char)) :
    collapseTokens (collapseTokens ts) = collapseTokens ts := by
  unfold collapseTokens
  have h1 : NoAdjDup (collapseRepeatedNgrams (collapseRepeatedWords ts)) :=
    collapseRepeatedNgrams_noAdjDup _ (crw_noAdjDup ts)
  rw [crw_id _ h1, collapseRepeatedNgrams_idem]

theorem collapseTokens_sublist (ts : List (List Char)) :
    (collapseTokens ts).Sublist ts :=
  (collapseRepeatedNgrams_sublist _).trans (crw_sublist ts)

/-! ### Clean-line lemmas -/

theorem space_not_word_conn {x : Char} (h : isPySpace x = true) :
    isWordChar x = false ∧ isConnector x = false := by
  simp only [isPySpace, Bool.or_eq_true, beq_iff_eq] at h
  rcases h with ((((h | h) | h) | h) | h) | h <;> subst h <;>
    exact ⟨by decide, by decide⟩

theorem linebreak_not_word_conn {x : Char} (h : isLineBreak x = true) :
    isWordChar x = false ∧ isConnector x = false := by
  simp only [isLineBreak, Bool.or_eq_true, beq_iff_eq] at h
  rcases h with ((((((((h | h) | h) | h) | h) | h) | h) | h) | h) | h <;> subst h <;>
    exact ⟨by decide, by decide⟩

theorem joinWith_ne_nil (sep : List Char) : ∀ (ts : List (List Char)),
    (∀ t ∈ ts, t ≠ []) → ts ≠ [] → joinWith sep ts ≠ []
  | [], _, h => absurd rfl h
  | [t], hne, _ => by
    show t ≠ []
    exact hne t (by simp)
  | t :: t₂ :: ts, hne, _ => by
    show t ++ sep ++ joinWith sep (t₂ :: ts) ≠ []
    have := hne t (by simp)
    simp [this]

theorem joinWith_head_mem (sep : List Char) : ∀ (ts : List (List Char)),
    (∀ t ∈ ts, t ≠ []) → ∀ x ∈ (joinWith sep ts).head?, ∃ t ∈ ts, x ∈ t.head?
  | [], _, x => by intro hx; simp [joinWith] at hx
  | [t], _, x => by
    intro hx
    exact ⟨t, by simp, hx⟩
  | t :: t₂ :: ts, hne, x => by
    intro hx
    show ∃ u ∈ t :: t₂ :: ts, x ∈ u.head?
    have hh : (joinWith sep (t :: t₂ :: ts)).head? = t.head? := by
      show (t ++ sep ++ joinWith sep (t₂ :: ts)).head? = t.head?
      obtain ⟨a, t', rfl⟩ : ∃ a t', t = a :: t' := by
        cases t with
        | nil => exact absurd rfl (hne _ (by simp))
        | cons a t' => exact ⟨a, t', rfl⟩
      rfl
    rw [hh] at hx
    exact ⟨t, by simp, hx⟩

theorem joinWith_last_mem (sep : List Char) : ∀ (ts : List (List Char)),
    (∀ t ∈ ts, t ≠ []) → ∀ x ∈ (joinWith sep ts).getLast?, ∃ t ∈ ts, x ∈ t.getLast?
  | [], _, x => by intro hx; simp [joinWith] at hx
  | [t], _, x => by
    intro hx
    exact ⟨t, by simp, hx⟩
  | t :: t₂ :: ts, hne, x => by
    intro hx
    show ∃ u ∈ t :: t₂ :: ts, x ∈ u.getLast?
    have hj : joinWith sep (t :: t₂ :: ts) = t ++ sep ++ joinWith sep (t₂ :: ts) :=
      rfl
    rw [hj, List.getLast?_append_of_ne_nil _
      (joinWith_ne_nil sep (t₂ :: ts) (fun u hu => hne u (by simp [hu]))
        (by simp))] at hx
    obtain ⟨u, hu, hx⟩ := joinWith_last_mem sep (t₂ :: ts)
      (fun u hu => hne u (by simp [hu])) x hx
    exact ⟨u, by simp [hu], hx⟩

theorem cleanLine_cases (line : List Char) :
    cleanLine line = [] ∨
    (cleanLine line = trimChars (joinSpace (collapseTokens (findWords line))) ∧
      collapseTokens (findWords line) ≠ [] ∧ findWords line ≠ []) := by
  unfold cleanLine
  by_cases h1 : (findWords line).isEmpty
  · rw [if_pos h1]
    exact Or.inl rfl
  · rw [if_neg h1]
    by_cases h2 : dropFillerOnlyLine (collapseTokens (findWords line))
    · rw [if_pos h2]
      exact Or.inl rfl
    · rw [if_neg h2]
      refine Or.inr ⟨rfl, ?_, ?_⟩
      · intro hnil
        rw [hnil] at h2
        exact h2 rfl
      · intro hnil
        rw [hnil] at h1
        exact h1 rfl

theorem token_chars_not_space {line : List Char} {t : List Char}
    (ht : t ∈ collapseTokens (findWords line)) :
    t ≠ [] ∧ (∀ x ∈ t, isPySpace x = false) ∧ findWords t = [t] := by
  have hmem : t ∈ findWords line := (collapseTokens_sublist _).mem ht
  obtain ⟨hne, hchars, hres⟩ := findWords_good line t hmem
  refine ⟨hne, ?_, hres⟩
  intro x hx
  rcases hchars x hx with hw | hc
  · by_cases hs : isPySpace x = true
    · exact absurd hw (by rw [(space_not_word_conn hs).1]; exact Bool.false_ne_true)
    · exact Bool.eq_false_iff.mpr hs
  · by_cases hs : isPySpace x = true
    · exact absurd hc (by rw [(space_not_word_conn hs).2]; exact Bool.false_ne_true)
    · exact Bool.eq_false_iff.mpr hs

theorem findWords_cleanLine_eq (line : List Char) (h : cleanLine line ≠ []) :
    findWords (cleanLine line) = collapseTokens (findWords line) := by
  rcases cleanLine_cases line with hc | ⟨hc, hne, _⟩
  · exact absurd hc h
  · rw [hc]
    have hgood : ∀ t ∈ collapseTokens (findWords line), t ≠ [] :=
      fun t ht => (token_chars_not_space ht).1
    have htrim : trimChars (joinSpace (collapseTokens (findWords line))) =
        joinSpace (collapseTokens (findWords line)) := by
      apply trimChars_eq_self
      · intro x hx
        obtain ⟨t, ht, hxt⟩ := joinWith_head_mem [' '] _ hgood x hx
        exact (token_chars_not_space ht).2.1 x (List.mem_of_mem_head? hxt)
      · intro x hx
        obtain ⟨t, ht, hxt⟩ := joinWith_last_mem [' '] _ hgood x hx
        exact (token_chars_not_space ht).2.1 x (List.mem_of_mem_getLast? hxt)
    rw [htrim]
    exact findWords_join_of_good ' ' (by decide) (by decide) _
      (fun t ht => (token_chars_not_space ht).2.2)

theorem findWords_cleanLine_sublist (line : List Char) :
    (findWords (cleanLine line)).Sublist (findWords line) := by
  by_cases h : cleanLine line = []
  · rw [h, findWords_nil]
    exact List.nil_sublist _
  · rw [findWords_cleanLine_eq line h]
    exact collapseTokens_sublist _

/-! ### Transcript-level lemmas -/

theorem breakLine_cons (c : Char) (rest : List Char) :
    breakLine (c :: rest) =
      if isLineBreak c then
        if c == '\x0d' && (rest.head? == some '\n') then ([], rest.tail)
        else ([], rest)
      else ((breakLine rest).1.cons c, (breakLine rest).2) := rfl

theorem breakLine_decomp : ∀ cs : List Char,
    ((breakLine cs).2 = [] ∧ (breakLine cs).1 = cs) ∨
    (∃ c sep, cs = (breakLine cs).1 ++ c :: (sep ++ (breakLine cs).2) ∧
      isWordChar c = false ∧ isConnector c = false ∧
      findWords (sep ++ (breakLine cs).2) = findWords (breakLine cs).2)
  | [] => Or.inl ⟨rfl, rfl⟩
  | c :: rest => by
    rw [breakLine_cons]
    by_cases hb : isLineBreak c = true
    · rw [if_pos hb]
      obtain ⟨hw, hc⟩ := linebreak_not_word_conn hb
      by_cases hrn : (c == '\x0d' && (rest.head? == some '\n')) = true
      · rw [if_pos hrn]
        rw [Bool.and_eq_true, beq_iff_eq, beq_iff_eq] at hrn
        obtain ⟨rfl, hhd⟩ := hrn
        obtain ⟨t, rfl⟩ : ∃ t, rest = '\n' :: t := by
          cases rest with
          | nil => simp at hhd
          | cons a t =>
            simp only [List.head?_cons, Option.some.injEq] at hhd
            exact ⟨t, by rw [hhd]⟩
        refine Or.inr ⟨'\x0d', ['\n'], rfl, hw, hc, ?_⟩
        show findWords ('\n' :: t) = findWords t
        exact findWords_cons_skip t (by decide)
      · rw [if_neg hrn]
        exact Or.inr ⟨c, [], rfl, hw, hc, rfl⟩
    · rw [if_neg hb]
      rcases breakLine_decomp rest with ⟨h2, h1⟩ | ⟨d, sep, heq, hw, hc, hsep⟩
      · refine Or.inl ⟨h2, ?_⟩
        show c :: (breakLine rest).1 = c :: rest
        rw [h1]
      · refine Or.inr ⟨d, sep, ?_, hw, hc, hsep⟩
        show c :: rest = c :: (breakLine rest).1 ++ d :: (sep ++ (breakLine rest).2)
        rw [List.cons_append, ← heq]

theorem findWords_breakLine (cs : List Char) :
    findWords cs = findWords (breakLine cs).1 ++ findWords (breakLine cs).2 := by
  rcases breakLine_decomp cs with ⟨h2, h1⟩ | ⟨c, sep, heq, hw, hc, hsep⟩
  · rw [h1, h2, findWords_nil, List.append_nil]
  · conv_lhs => rw [heq]
    rw [findWords_sep _ c _ hw hc, hsep]

theorem breakLine_snd_lt : ∀ cs : List Char, cs ≠ [] →
    (breakLine cs).2.length < cs.length
  | [], h => absurd rfl h
  | c :: rest, _ => by
    rw [breakLine_cons]
    by_cases hb : isLineBreak c = true
    · rw [if_pos hb]
      by_cases hrn : (c == '\x0d' && (rest.head? == some '\n')) = true
      · rw [if_pos hrn]
        have h2 : rest.tail.length = rest.length - 1 := List.length_tail rest
        simp only [List.length_cons]
        omega
      · rw [if_neg hrn]
        simp
    · rw [if_neg hb]
      cases hre : rest with
      | nil =>
        show (breakLine []).2.length < 1
        simp [breakLine]
      | cons d rest₂ =>
        have hlt := breakLine_snd_lt rest (by rw [hre]; simp)
        rw [hre] at hlt
        simp only [List.length_cons] at hlt ⊢
        omega

theorem splitlinesF_words : ∀ fuel (cs : List Char), cs.length ≤ fuel →
    findWords cs = ((splitlinesF fuel cs).map findWords).flatten
  | 0, cs, h => by
    have : cs = [] := List.length_eq_zero.mp (Nat.le_zero.mp h)
    subst this
    rfl
  | fuel + 1, [], _ => rfl
  | fuel + 1, c :: rest, h => by
    show findWords (c :: rest) =
      (((breakLine (c :: rest)).1 ::
        splitlinesF fuel (breakLine (c :: rest)).2).map findWords).flatten
    rw [List.map_cons, List.flatten_cons]
    rw [findWords_breakLine (c :: rest)]
    congr 1
    have hlt := breakLine_snd_lt (c :: rest) (by simp)
    exact splitlinesF_words fuel (breakLine (c :: rest)).2
      (by simp only [List.length_cons] at h hlt; omega)

theorem findWords_splitlines (cs : List Char) :
    findWords cs = ((splitlines cs).map findWords).flatten :=
  splitlinesF_words cs.length cs (le_refl _)

theorem emitLines_length_le : ∀ (prev : List Char) (ls : List (List Char)),
    (emitLines prev ls).length ≤ ls.length
  | _, [] => le_refl 0
  | prev, l :: ls => by
    unfold emitLines
    by_cases h1 : (cleanLine l).isEmpty
    · rw [if_pos h1]
      have := emitLines_length_le prev ls
      simp only [List.length_cons]
      omega
    · rw [if_neg h1]
      by_cases h2 : casefoldTok (cleanLine l) = prev
      · rw [if_pos h2]
        have := emitLines_length_le prev ls
        simp only [List.length_cons]
        omega
      · rw [if_neg h2]
        have := emitLines_length_le (casefoldTok (cleanLine l)) ls
        simp only [List.length_cons]
        omega

theorem emitLines_words_le : ∀ (prev : List Char) (ls : List (List Char)),
    (((emitLines prev ls).map findWords).flatten).length ≤
      ((ls.map findWords).flatten).length
  | _, [] => le_refl 0
  | prev, l :: ls => by
    unfold emitLines
    have hsub : (findWords (cleanLine l)).length ≤ (findWords l).length :=
      (findWords_cleanLine_sublist l).length_le
    by_cases h1 : (cleanLine l).isEmpty
    · rw [if_pos h1]
      have := emitLines_words_le prev ls
      simp only [List.map_cons, List.flatten_cons, List.length_append]
      omega
    · rw [if_neg h1]
      by_cases h2 : casefoldTok (cleanLine l) = prev
      · rw [if_pos h2]
        have := emitLines_words_le prev ls
        simp only [List.map_cons, List.flatten_cons, List.length_append]
        omega
      · rw [if_neg h2]
        have := emitLines_words_le (casefoldTok (cleanLine l)) ls
        simp only [List.map_cons, List.flatten_cons, List.length_append]
        omega

theorem emitLines_mem : ∀ (prev : List Char) (ls : List (List Char)) (e : List Char),
    e ∈ emitLines prev ls → e ≠ [] ∧ ∃ l ∈ ls, e = cleanLine l
  | _, [], e => by intro h; simp [emitLines] at h
  | prev, l :: ls, e => by
    intro h
    unfold emitLines at h
    by_cases h1 : (cleanLine l).isEmpty
    · rw [if_pos h1] at h
      obtain ⟨hne, u, hu, he⟩ := emitLines_mem prev ls e h
      exact ⟨hne, u, by simp [hu], he⟩
    · rw [if_neg h1] at h
      by_cases h2 : casefoldTok (cleanLine l) = prev
      · rw [if_pos h2] at h
        obtain ⟨hne, u, hu, he⟩ := emitLines_mem prev ls e h
        exact ⟨hne, u, by simp [hu], he⟩
      · rw [if_neg h2] at h
        rcases List.mem_cons.mp h with rfl | h
        · refine ⟨?_, l, by simp, rfl⟩
          intro hnil
          rw [hnil] at h1
          exact h1 rfl
        · obtain ⟨hne, u, hu, he⟩ :=
            emitLines_mem (casefoldTok (cleanLine l)) ls e h
          exact ⟨hne, u, by simp [hu], he⟩

theorem cleanLine_boundary (l : List Char) (h : cleanLine l ≠ []) :
    (∀ x ∈ (cleanLine l).head?, isPySpace x = false) ∧
    (∀ x ∈ (cleanLine l).getLast?, isPySpace x = false) := by
  rcases cleanLine_cases l with hc | ⟨hc, _, _⟩
  · exact absurd hc h
  · rw [hc]
    exact ⟨trimChars_head _, trimChars_last _⟩

theorem cleanedText_trim (raw : List Char) :
    trimChars (joinWith ['\n'] (emitLines [] (splitlines raw))) =
      joinWith ['\n'] (emitLines [] (splitlines raw)) := by
  apply trimChars_eq_self
  · intro x hx
    obtain ⟨e, he, hxe⟩ := joinWith_head_mem ['\n'] _
      (fun e he => (emitLines_mem _ _ e he).1) x hx
    obtain ⟨hne, l, _, rfl⟩ := emitLines_mem _ _ e he
    exact (cleanLine_boundary l hne).1 x hxe
  · intro x hx
    obtain ⟨e, he, hxe⟩ := joinWith_last_mem ['\n'] _
      (fun e he => (emitLines_mem _ _ e he).1) x hx
    obtain ⟨hne, l, _, rfl⟩ := emitLines_mem _ _ e he
    exact (cleanLine_boundary l hne).2 x hxe

theorem cleanTranscript_newline (raw : List Char) :
    (cleanTranscriptChars raw).1 = [] ∨
    ∃ b, (cleanTranscriptChars raw).1 = b ++ ['\n'] ∧ b.getLast? ≠ some '\n' := by
  unfold cleanTranscriptChars
  dsimp only
  by_cases h : (trimChars (joinWith ['\n'] (emitLines [] (splitlines raw)))).isEmpty
  · rw [if_pos h]
    exact Or.inl rfl
  · rw [if_neg h]
    refine Or.inr ⟨trimChars (joinWith ['\n'] (emitLines [] (splitlines raw))),
      rfl, ?_⟩
    intro heq
    have hmem : ('\n' : Char) ∈
        (trimChars (joinWith ['\n'] (emitLines [] (splitlines raw)))).getLast? := by
      rw [heq]
      rfl
    have := trimChars_last _ '\n' hmem
    exact absurd this (by decide)

theorem cleanTranscript_stats (raw : List Char) :
    (cleanTranscriptChars raw).2.words_out ≤ (cleanTranscriptChars raw).2.words_in ∧
    (cleanTranscriptChars raw).2.lines_out ≤ (cleanTranscriptChars raw).2.lines_in := by
  unfold cleanTranscriptChars
  dsimp only
  constructor
  · rw [cleanedText_trim raw]
    rw [findWords_joinWith '\n' (by decide) (by decide)]
    conv_rhs => rw [findWords_splitlines raw]
    exact emitLines_words_le [] (splitlines raw)
  · exact emitLines_length_le [] (splitlines raw)

/-! ### Entity-map lemmas -/

theorem lookupEnt_cons_self (k : String) (ts : List String)
    (rest : List (String × List String)) :
    lookupEnt ((k, ts) :: rest) k = some ts := by
  simp [lookupEnt]

theorem lookupEnt_cons_ne {k name : String} (ts : List String)
    (rest : List (String × List String)) (h : k ≠ name) :
    lookupEnt ((k, ts) :: rest) name = lookupEnt rest name := by
  simp [lookupEnt, h]

theorem addEntity_recorded : ∀ (m : List (String × List String)) (name title : String),
    Recorded (addEntity m name title) name title
  | [], name, title => ⟨[title], by simp [addEntity, lookupEnt], by simp⟩
  | (k, ts) :: rest, name, title => by
    by_cases hk : k = name
    · subst hk
      refine ⟨if title ∈ ts then ts else ts ++ [title], ?_, ?_⟩
      · simp [addEntity, lookupEnt]
      · by_cases ht : title ∈ ts
        · simp [ht]
        · simp [ht]
    · obtain ⟨ts', hl, hm⟩ := addEntity_recorded rest name title
      exact ⟨ts', by simp [addEntity, lookupEnt, hk, hl], hm⟩

theorem addEntity_preserves :
    ∀ (m : List (String × List String)) (name title n' t' : String),
    Recorded m n' t' → Recorded (addEntity m name title) n' t'
  | [], name, title, n', t', h => by
    obtain ⟨ts, hl, _⟩ := h
    simp [lookupEnt] at hl
  | (k, ts) :: rest, name, title, n', t', h => by
    obtain ⟨ts', hl, hm⟩ := h
    by_cases hk : k = name
    · subst hk
      by_cases hk' : k = n'
      · subst hk'
        rw [lookupEnt_cons_self] at hl
        injection hl with hl
        subst hl
        refine ⟨if title ∈ ts then ts else ts ++ [title], ?_, ?_⟩
        · simp [addEntity, lookupEnt]
        · by_cases ht : title ∈ ts
          · simp [ht, hm]
          · simp [ht, hm]
      · rw [lookupEnt_cons_ne ts rest hk'] at hl
        exact ⟨ts', by simp [addEntity, lookupEnt, hk', hl], hm⟩
    · by_cases hk' : k = n'
      · subst hk'
        rw [lookupEnt_cons_self] at hl
        injection hl with hl
        subst hl
        exact ⟨ts, by simp [addEntity, lookupEnt, hk], hm⟩
      · rw [lookupEnt_cons_ne ts rest hk'] at hl
        obtain ⟨ts'', hl'', hm''⟩ := addEntity_preserves rest name title n' t' ⟨ts', hl, hm⟩
        exact ⟨ts'', by simp [addEntity, lookupEnt, hk, hk', hl''], hm''⟩

theorem addEntity_id : ∀ (m : List (String × List String)) (name title : String),
    Recorded m name title → addEntity m name title = m
  | [], name, title, h => by
    obtain ⟨ts, hl, _⟩ := h
    simp [lookupEnt] at hl
  | (k, ts) :: rest, name, title, h => by
    obtain ⟨ts', hl, hm⟩ := h
    by_cases hk : k = name
    · subst hk
      rw [lookupEnt_cons_self] at hl
      injection hl with hl
      subst hl
      simp [addEntity, hm]
    · rw [lookupEnt_cons_ne ts rest hk] at hl
      simp only [addEntity, if_neg hk, List.cons.injEq, true_and]
      exact addEntity_id rest name title ⟨ts', hl, hm⟩

theorem foldl_addEntity_preserves :
    ∀ (names : List String) (m : List (String × List String)) (title n' t' : String),
    Recorded m n' t' →
    Recorded (names.foldl (fun m n => addEntity m n title) m) n' t'
  | [], _, _, _, _, h => h
  | n :: names, m, title, n', t', h => by
    rw [List.foldl_cons]
    exact foldl_addEntity_preserves names _ title n' t'
      (addEntity_preserves m n title n' t' h)

theorem foldl_addEntity_recorded :
    ∀ (names : List String) (m : List (String × List String)) (title : String),
    ∀ n ∈ names, Recorded (names.foldl (fun m n => addEntity m n title) m) n title
  | [], _, _ => by intro n hn; simp at hn
  | n₀ :: names, m, title => by
    intro n hn
    rw [List.foldl_cons]
    rcases List.mem_cons.mp hn with rfl | hn
    · exact foldl_addEntity_preserves names _ title n title
        (addEntity_recorded m n title)
    · exact foldl_addEntity_recorded names _ title n hn

theorem foldl_addEntity_id :
    ∀ (names : List String) (m : List (String × List String)) (title : String),
    (∀ n ∈ names, Recorded m n title) →
    names.foldl (fun m n => addEntity m n title) m = m
  | [], _, _, _ => rfl
  | n :: names, m, title, h => by
    rw [List.foldl_cons, addEntity_id m n title (h n (by simp))]
    exact foldl_addEntity_id names m title (fun u hu => h u (by simp [hu]))

theorem foldl_hooks_preserves :
    ∀ (hooks hs : List String) (x : String), x ∈ hs →
    x ∈ hooks.foldl (fun hs h => if h ∈ hs then hs else hs ++ [h]) hs
  | [], _, _, h => h
  | hk :: hooks, hs, x, h => by
    rw [List.foldl_cons]
    apply foldl_hooks_preserves hooks _ x
    by_cases hm : hk ∈ hs
    · rw [if_pos hm]
      exact h
    · rw [if_neg hm]
      exact List.mem_append_left _ h

theorem foldl_hooks_mem :
    ∀ (hooks hs : List String), ∀ x ∈ hooks,
    x ∈ hooks.foldl (fun hs h => if h ∈ hs then hs else hs ++ [h]) hs
  | [], _ => by intro x hx; simp at hx
  | hk :: hooks, hs => by
    intro x hx
    rw [List.foldl_cons]
    rcases List.mem_cons.mp hx with rfl | hx
    · apply foldl_hooks_preserves hooks _ x
      by_cases hm : x ∈ hs
      · rw [if_pos hm]
        exact hm
      · rw [if_neg hm]
        exact List.mem_append_right _ (by simp)
    · exact foldl_hooks_mem hooks _ x hx

theorem foldl_hooks_id :
    ∀ (hooks hs : List String), (∀ x ∈ hooks, x ∈ hs) →
    hooks.foldl (fun hs h => if h ∈ hs then hs else hs ++ [h]) hs = hs
  | [], _, _ => rfl
  | hk :: hooks, hs, h => by
    rw [List.foldl_cons, if_pos (h hk (by simp))]
    exact foldl_hooks_id hooks hs (fun x hx => h x (by simp [hx]))

theorem updateIndex_idem (index : CampaignIndex) (summary : SessionSummary)
    (notePath transcriptPath t₁ t₂ : String) :
    updateIndex (updateIndex index summary notePath transcriptPath t₁)
        summary notePath transcriptPath t₂ =
      { updateIndex index summary notePath transcriptPath t₁ with
        updated_at := t₂ } := by
  unfold updateIndex
  dsimp only
  have hrec : (⟨summary.session_title, summary.session_date, notePath,
      transcriptPath⟩ : SessionRecord) ∈
      (if (⟨summary.session_title, summary.session_date, notePath,
          transcriptPath⟩ : SessionRecord) ∈ index.sessions then index.sessions
       else index.sessions ++ [⟨summary.session_title, summary.session_date,
          notePath, transcriptPath⟩]) := by
    by_cases h : (⟨summary.session_title, summary.session_date, notePath,
        transcriptPath⟩ : SessionRecord) ∈ index.sessions
    · rw [if_pos h]
      exact h
    · rw [if_neg h]
      exact List.mem_append_right _ (by simp)
  rw [if_pos hrec]
  rw [foldl_addEntity_id _ _ _ (foldl_addEntity_recorded _ _ _)]
  rw [foldl_addEntity_id _ _ _ (foldl_addEntity_recorded _ _ _)]
  rw [foldl_addEntity_id _ _ _ (foldl_addEntity_recorded _ _ _)]
  rw [foldl_addEntity_id _ _ _ (foldl_addEntity_recorded _ _ _)]
  rw [foldl_hooks_id _ _ (foldl_hooks_mem _ _)]

/-! ### Trim-list lemmas -/

theorem trimList_cons (limit mc : Nat) (seen : List String) (v : String)
    (vs : List String) :
    trimList limit mc seen (v :: vs) =
      if pyStrip v = "" then trimList limit mc seen vs
      else if casefoldStr (pyStrip v) ∈ seen then trimList limit mc seen vs
      else if limit ≤ 1 then [truncateName mc (pyStrip v)]
      else truncateName mc (pyStrip v) ::
        trimList (limit - 1) mc (casefoldStr (pyStrip v) :: seen) vs := rfl

theorem trimList_length : ∀ (vs : List String) (limit mc : Nat)
    (seen : List String), 1 ≤ limit → (trimList limit mc seen vs).length ≤ limit
  | [], _, _, _, h => by
    simp [trimList]
  | v :: vs, limit, mc, seen, hl => by
    rw [trimList_cons]
    by_cases h1 : pyStrip v = ""
    · rw [if_pos h1]
      exact trimList_length vs limit mc seen hl
    · rw [if_neg h1]
      by_cases h2 : casefoldStr (pyStrip v) ∈ seen
      · rw [if_pos h2]
        exact trimList_length vs limit mc seen hl
      · rw [if_neg h2]
        by_cases h3 : limit ≤ 1
        · rw [if_pos h3]
          simpa using hl
        · rw [if_neg h3]
          have := trimList_length vs (limit - 1) mc
            (casefoldStr (pyStrip v) :: seen) (by omega)
          simp only [List.length_cons]
          omega

theorem truncateName_length (mc : Nat) (clean : String) (h3 : 3 ≤ mc) :
    (truncateName mc clean).length ≤ mc := by
  unfold truncateName
  by_cases h : mc < clean.length
  · rw [if_pos h]
    rw [String.length_append]
    have hr : (pyRstrip (String.mk (clean.data.take (mc - 3)))).length ≤ mc - 3 := by
      show (rtrimChars (String.mk (clean.data.take (mc - 3))).data).length ≤ mc - 3
      have h1 : (rtrimChars (clean.data.take (mc - 3))).length ≤
          (clean.data.take (mc - 3)).length :=
        (rtrimChars_prefix_self _).sublist.length_le
      have h2 : (clean.data.take (mc - 3)).length ≤ mc - 3 := by
        simp [List.length_take]
      exact le_trans h1 h2
    have hdots : ("..." : String).length = 3 := rfl
    omega
  · rw [if_neg h]
    omega

theorem trimList_structure : ∀ (vs : List String) (limit mc : Nat)
    (seen : List String), ∃ kept : List String,
      trimList limit mc seen vs = kept.map (truncateName mc) ∧
      kept.Sublist (vs.map pyStrip) ∧
      (∀ k ∈ kept, k ≠ "" ∧ casefoldStr k ∉ seen) ∧
      kept.Pairwise (fun a b => casefoldStr a ≠ casefoldStr b)
  | [], _, _, _ => ⟨[], rfl, List.nil_sublist _, by simp, List.Pairwise.nil⟩
  | v :: vs, limit, mc, seen => by
    rw [trimList_cons]
    by_cases h1 : pyStrip v = ""
    · rw [if_pos h1]
      obtain ⟨kept, he, hs, hp, hpw⟩ := trimList_structure vs limit mc seen
      exact ⟨kept, he, hs.cons _, hp, hpw⟩
    · rw [if_neg h1]
      by_cases h2 : casefoldStr (pyStrip v) ∈ seen
      · rw [if_pos h2]
        obtain ⟨kept, he, hs, hp, hpw⟩ := trimList_structure vs limit mc seen
        exact ⟨kept, he, hs.cons _, hp, hpw⟩
      · rw [if_neg h2]
        by_cases h3 : limit ≤ 1
        · rw [if_pos h3]
          exact ⟨[pyStrip v], rfl, (List.nil_sublist _).cons₂ _,
            by
              intro k hk
              rcases List.mem_singleton.mp hk with rfl
              exact ⟨h1, h2⟩,
            List.pairwise_singleton _ _⟩
        · rw [if_neg h3]
          obtain ⟨kept, he, hs, hp, hpw⟩ := trimList_structure vs (limit - 1) mc
            (casefoldStr (pyStrip v) :: seen)
          refine ⟨pyStrip v :: kept, by rw [he]; rfl, hs.cons₂ _, ?_, ?_⟩
          · intro k hk
            rcases List.mem_cons.mp hk with rfl | hk
            · exact ⟨h1, h2⟩
            · refine ⟨(hp k hk).1, ?_⟩
              have := (hp k hk).2
              intro hmem
              exact this (by simp [hmem])
          · refine List.pairwise_cons.mpr ⟨?_, hpw⟩
            intro k hk
            have := (hp k hk).2
            intro heq
            exact this (by simp [heq])

/-! ### Summary-payload lemmas -/

theorem pyIterStrs_isOk (j : JsonValue) : (pyIterStrs j).isOk = iterableJson j := by
  cases j <;> rfl

theorem fromPayload_missing (payload : List (String × JsonValue))
    (h : missingKeys payload ≠ []) :
    fromPayload payload = .error (("Missing keys in summarizer JSON: ") ++
      String.intercalate (", ") (missingKeys payload)) := by
  unfold fromPayload
  rw [if_neg (by
    intro hiff
    exact h (List.isEmpty_iff.mp hiff))]

theorem fromPayload_isOk (payload : List (String × JsonValue))
    (h : missingKeys payload = []) :
    (fromPayload payload).isOk =
      (iterableJson (getJsonD payload ("characters") (.arr [])) &&
       iterableJson (getJsonD payload ("locations") (.arr [])) &&
       iterableJson (getJsonD payload ("factions") (.arr [])) &&
       iterableJson (getJsonD payload ("events") (.arr [])) &&
       iterableJson (getJsonD payload ("unresolved_hooks") (.arr []))) := by
  unfold fromPayload
  rw [if_pos (by rw [h]; rfl)]
  rcases hc : pyIterStrs (getJsonD payload ("characters") (.arr [])) with e | vs <;>
    rcases hl : pyIterStrs (getJsonD payload ("locations") (.arr [])) with e₂ | vs₂ <;>
      rcases hf : pyIterStrs (getJsonD payload ("factions") (.arr [])) with e₃ | vs₃ <;>
        rcases he : pyIterStrs (getJsonD payload ("events") (.arr [])) with e₄ | vs₄ <;>
          rcases hh : pyIterStrs (getJsonD payload ("unresolved_hooks") (.arr []))
            with e₅ | vs₅ <;>
  · have ic := pyIterStrs_isOk (getJsonD payload ("characters") (.arr []))
    have il := pyIterStrs_isOk (getJsonD payload ("locations") (.arr []))
    have if' := pyIterStrs_isOk (getJsonD payload ("factions") (.arr []))
    have ie := pyIterStrs_isOk (getJsonD payload ("events") (.arr []))
    have ih := pyIterStrs_isOk (getJsonD payload ("unresolved_hooks") (.arr []))
    rw [hc] at ic
    rw [hl] at il
    rw [hf] at if'
    rw [he] at ie
    rw [hh] at ih
    simp only [hc, hl, hf, he, hh, ← ic, ← il, ← if', ← ie, ← ih]
    rfl

/-! ### Previous-session lemmas -/

theorem prevGo_cons (rk : String → String)
    (sp : String → List (String × JsonValue)) (gh : List String) (ck : String)
    (r : SessionRecord) (rest : List SessionRecord) :
    prevGo rk sp gh ck (r :: rest) =
      if pyStrip r.transcript_file = "" then prevGo rk sp gh ck rest
      else if rk (pyStrip r.transcript_file) = ck then prevGo rk sp gh ck rest
      else
        (buildContext gh r (sp (pyStrip r.transcript_file)) >>= fun ctx =>
          if emitCheck ctx then .ok (some ctx)
          else prevGo rk sp gh ck rest) := rfl

theorem prevGo_none : ∀ (rs : List SessionRecord) (rk : String → String)
    (sp : String → List (String × JsonValue)) (gh : List String) (ck : String),
    (∀ r ∈ rs, pyStrip r.transcript_file = "" ∨
      rk (pyStrip r.transcript_file) = ck ∨
      (∃ ctx, buildContext gh r (sp (pyStrip r.transcript_file)) = .ok ctx ∧
        emitCheck ctx = false)) →
    prevGo rk sp gh ck rs = .ok none
  | [], _, _, _, _, _ => rfl
  | r :: rs, rk, sp, gh, ck, h => by
    rw [prevGo_cons]
    have hrest := prevGo_none rs rk sp gh ck (fun u hu => h u (by simp [hu]))
    by_cases h1 : pyStrip r.transcript_file = ""
    · rw [if_pos h1]
      exact hrest
    · rw [if_neg h1]
      by_cases h2 : rk (pyStrip r.transcript_file) = ck
      · rw [if_pos h2]
        exact hrest
      · rw [if_neg h2]
        rcases h r (by simp) with h1' | h2' | ⟨ctx, hok, hemit⟩
        · exact absurd h1' h1
        · exact absurd h2' h2
        · rw [hok]
          show (if emitCheck ctx = true then (.ok (some ctx)) else
            prevGo rk sp gh ck rs : Except String (Option SessionContext)) = .ok none
          rw [if_neg (by rw [hemit]; exact Bool.false_ne_true)]
          exact hrest

/-! ### Whitespace-input lemmas -/

theorem tokenizeF_no_word : ∀ fuel (cs : List Char),
    (∀ c ∈ cs, isWordChar c = false) → tokenizeF fuel cs = []
  | 0, _, _ => rfl
  | _ + 1, [], _ => rfl
  | fuel + 1, c :: rest, h => by
    rw [tokenizeF_cons, if_neg (by
      rw [h c (by simp)]
      exact Bool.false_ne_true)]
    exact tokenizeF_no_word fuel rest (fun x hx => h x (by simp [hx]))

theorem breakLine_chars : ∀ cs : List Char,
    (∀ x ∈ (breakLine cs).1, x ∈ cs) ∧ (∀ x ∈ (breakLine cs).2, x ∈ cs)
  | [] => ⟨by simp [breakLine], by simp [breakLine]⟩
  | c :: rest => by
    rw [breakLine_cons]
    by_cases hb : isLineBreak c = true
    · rw [if_pos hb]
      by_cases hrn : (c == '\x0d' && (rest.head? == some '\n')) = true
      · rw [if_pos hrn]
        refine ⟨by simp, ?_⟩
        intro x hx
        have := List.tail_subset rest hx
        simp [this]
      · rw [if_neg hrn]
        exact ⟨by simp, fun x hx => by simp [hx]⟩
    · rw [if_neg hb]
      obtain ⟨ih1, ih2⟩ := breakLine_chars rest
      constructor
      · intro x hx
        rcases List.mem_cons.mp hx with rfl | hx
        · simp
        · simp [ih1 x hx]
      · intro x hx
        simp [ih2 x hx]

theorem splitlinesF_chars : ∀ fuel (cs : List Char) (l : List Char),
    l ∈ splitlinesF fuel cs → ∀ x ∈ l, x ∈ cs
  | 0, _, l => by intro h; simp [splitlinesF] at h
  | _ + 1, [], l => by intro h; simp [splitlinesF] at h
  | fuel + 1, c :: rest, l => by
    intro hl x hx
    rcases List.mem_cons.mp hl with rfl | hl
    · exact (breakLine_chars (c :: rest)).1 x hx
    · exact (breakLine_chars (c :: rest)).2 x
        (splitlinesF_chars fuel (breakLine (c :: rest)).2 l hl x hx)

theorem cleanLine_no_word (l : List Char)
    (h : ∀ c ∈ l, isWordChar c = false) : cleanLine l = [] := by
  unfold cleanLine
  rw [if_pos (by
    show (findWords l).isEmpty = true
    show (tokenizeF l.length l).isEmpty = true
    rw [tokenizeF_no_word l.length l h]
    rfl)]

theorem emitLines_all_empty : ∀ (prev : List Char) (ls : List (List Char)),
    (∀ l ∈ ls, cleanLine l = []) → emitLines prev ls = []
  | _, [], _ => rfl
  | prev, l :: ls, h => by
    unfold emitLines
    rw [if_pos (by
      rw [h l (by simp)]
      rfl)]
    exact emitLines_all_empty prev ls (fun u hu => h u (by simp [hu]))

theorem cleanTranscript_whitespace (raw : List Char)
    (h : ∀ c ∈ raw, isPySpace c = true) :
    cleanTranscriptChars raw = ([], ⟨(splitlines raw).length, 0, 0, 0⟩) := by
  have hw : ∀ c ∈ raw, isWordChar c = false :=
    fun c hc => (space_not_word_conn (h c hc)).1
  have hfw : findWords raw = [] := tokenizeF_no_word raw.length raw hw
  have hemit : emitLines [] (splitlines raw) = [] := by
    apply emitLines_all_empty
    intro l hl
    exact cleanLine_no_word l
      (fun c hc => hw c (splitlinesF_chars raw.length raw l hl c hc))
  unfold cleanTranscriptChars
  dsimp only
  rw [hemit, hfw]
  rfl

/-! ### Claim theorems -/

/-- C1: for every ledger state, every SessionSummary and every pair of
note/transcript paths, calling `update_index` a second time with the same
summary and paths leaves the sessions list, each of the four entity maps and
the unresolved-hooks list unchanged in content; only the `updated_at`
timestamp changes. -/
theorem claim_C1_update_index_idempotent :
    ∀ (index : CampaignIndex) (summary : SessionSummary)
      (notePath transcriptPath t₁ t₂ : String),
      updateIndex (updateIndex index summary notePath transcriptPath t₁)
          summary notePath transcriptPath t₂ =
        { updateIndex index summary notePath transcriptPath t₁ with
          updated_at := t₂ } :=
  fun index summary notePath transcriptPath t₁ t₂ =>
    updateIndex_idem index summary notePath transcriptPath t₁ t₂

/-- C2: the repeat-collapsing transformation applied per line by `clean_line`
(adjacent single-token collapse followed by contiguous phrase collapse) is
idempotent on every token sequence. -/
theorem claim_C2_collapse_idempotent :
    ∀ ts : List (List Char), collapseTokens (collapseTokens ts) = collapseTokens ts := by
  intro ts
  have h1 : NoAdjDup (collapseTokens ts) :=
    collapseRepeatedNgrams_noAdjDup _ (crw_noAdjDup ts)
  show collapseRepeatedNgrams (collapseRepeatedWords (collapseTokens ts)) =
    collapseTokens ts
  rw [crw_id _ h1]
  exact collapseRepeatedNgrams_idem (collapseRepeatedWords ts)

/-- C3 counterexample: the claim asserts every name longer than 80 characters
is truncated in each of the four buckets, but the events bucket of
`get_campaign_memory_context` uses `max_chars = 100`, so an 81-character
event name reaches the snapshot untruncated. -/
theorem claim_C3_counterexample :
    (getCampaignMemoryContext (fun s => s)
      { defaultIndex with
        events := [(String.mk (List.replicate 81 'a'), [])] }
      ("")).known_events = [String.mk (List.replicate 81 'a')] ∧
    80 < (String.mk (List.replicate 81 'a')).length := by
  constructor
  · decide
  · decide

/-- C3 (amended): the snapshot trims the characters, locations and factions
buckets to at most 30 entries and the events bucket to at most 15 (hooks to
at most 10), preserving first-seen order and removing case-insensitive
duplicate names before truncation; names are truncated to the leading
`max_chars - 3` characters (right-stripped) plus an ellipsis only past each
bucket's own bound — 80 characters for characters/locations/factions but 100
for events (120 for hooks) — and a 50-entry characters map yields exactly 30
snapshot entries. -/
theorem claim_C3_amended :
    (∀ (rk : String → String) (idx : CampaignIndex) (ck : String),
      (getCampaignMemoryContext rk idx ck).known_characters.length ≤ 30 ∧
      (getCampaignMemoryContext rk idx ck).known_locations.length ≤ 30 ∧
      (getCampaignMemoryContext rk idx ck).known_factions.length ≤ 30 ∧
      (getCampaignMemoryContext rk idx ck).known_events.length ≤ 15 ∧
      (getCampaignMemoryContext rk idx ck).open_hooks.length ≤ 10 ∧
      (∀ x ∈ (getCampaignMemoryContext rk idx ck).known_characters,
        x.length ≤ 80) ∧
      (∀ x ∈ (getCampaignMemoryContext rk idx ck).known_events,
        x.length ≤ 100) ∧
      (∃ kept : List String,
        (getCampaignMemoryContext rk idx ck).known_characters =
          kept.map (truncateName 80) ∧
        kept.Sublist ((idx.characters.map Prod.fst).map pyStrip) ∧
        kept.Pairwise (fun a b => casefoldStr a ≠ casefoldStr b)) ∧
      (∃ kept : List String,
        (getCampaignMemoryContext rk idx ck).known_events =
          kept.map (truncateName 100) ∧
        kept.Sublist ((idx.events.map Prod.fst).map pyStrip) ∧
        kept.Pairwise (fun a b => casefoldStr a ≠ casefoldStr b))) ∧
    (getCampaignMemoryContext (fun s => s)
      { defaultIndex with
        characters := (List.range 50).map
          (fun i => (("c") ++ toString i, [])) }
      ("")).known_characters.length = 30 := by
  constructor
  · intro rk idx ck
    refine ⟨trimList_length _ 30 80 [] (by omega),
      trimList_length _ 30 80 [] (by omega),
      trimList_length _ 30 80 [] (by omega),
      trimList_length _ 15 100 [] (by omega),
      trimList_length _ 10 120 [] (by omega), ?_, ?_, ?_, ?_⟩
    · intro x hx
      obtain ⟨kept, he, _, _, _⟩ :=
        trimList_structure (idx.characters.map Prod.fst) 30 80 []
      rw [show (getCampaignMemoryContext rk idx ck).known_characters =
        trimList 30 80 [] (idx.characters.map Prod.fst) from rfl, he] at hx
      obtain ⟨k, _, rfl⟩ := List.mem_map.mp hx
      exact truncateName_length 80 k (by omega)
    · intro x hx
      obtain ⟨kept, he, _, _, _⟩ :=
        trimList_structure (idx.events.map Prod.fst) 15 100 []
      rw [show (getCampaignMemoryContext rk idx ck).known_events =
        trimList 15 100 [] (idx.events.map Prod.fst) from rfl, he] at hx
      obtain ⟨k, _, rfl⟩ := List.mem_map.mp hx
      exact truncateName_length 100 k (by omega)
    · obtain ⟨kept, he, hs, _, hpw⟩ :=
        trimList_structure (idx.characters.map Prod.fst) 30 80 []
      exact ⟨kept, he, hs, hpw⟩
    · obtain ⟨kept, he, hs, _, hpw⟩ :=
        trimList_structure (idx.events.map Prod.fst) 15 100 []
      exact ⟨kept, he, hs, hpw⟩
  · decide

/-- C4: transcript-level adjacent duplicate-line removal on the spec's
example transcript, and for every input the returned text is empty exactly
when everything is filtered and otherwise ends with exactly one trailing
line terminator. -/
theorem claim_C4_transcript_dedup :
    cleanTranscriptText ("hello there\nhello there\nhello there\nnext line\n") =
      (("hello there\nnext line\n" : String), ⟨4, 2, 8, 4⟩) ∧
    ∀ raw : List Char, (cleanTranscriptChars raw).1 = [] ∨
      ∃ b, (cleanTranscriptChars raw).1 = b ++ ['\n'] ∧ b.getLast? ≠ some '\n' :=
  ⟨by decide, cleanTranscript_newline⟩

/-- C5: three consecutive repetitions of the 4-word phrase "we can do that"
collapse to a single copy; the collapse (trying phrase length 4 before 3 and
2 in each pass) returns exactly the one 4-word phrase. -/
theorem claim_C5_phrase_collapse :
    cleanLineStr ("we can do that we can do that we can do that") =
      ("we can do that" : String) ∧
    collapseTokens (findWords ("we can do that we can do that we can do that" :
        String).data) =
      findWords (("we can do that" : String)).data :=
  ⟨by decide, by decide⟩

/-- C6: `load_index` returns the parsed ledger when the file exists and
parses, returns the fresh empty ledger when the file does not exist, and
surfaces a parse failure to the caller unchanged (no silent fallback). -/
theorem claim_C6_load_index :
    ∀ (parse : String → Except String CampaignIndex) (file : Option String),
      (file = none → loadIndex parse file = .ok defaultIndex) ∧
      (∀ c v, file = some c → parse c = .ok v → loadIndex parse file = .ok v) ∧
      (∀ c e, file = some c → parse c = .error e →
        loadIndex parse file = .error e) := by
  intro parse file
  refine ⟨?_, ?_, ?_⟩
  · rintro rfl
    rfl
  · rintro c v rfl hp
    exact hp
  · rintro c e rfl hp
    exact hp

theorem claim_C6_witness :
    loadIndex (fun s => if s = ("ok") then .ok defaultIndex else .error ("bad"))
      none = .ok defaultIndex ∧
    loadIndex (fun s => if s = ("ok") then .ok defaultIndex else .error ("bad"))
      (some ("ok")) = .ok defaultIndex ∧
    loadIndex (fun s => if s = ("ok") then .ok defaultIndex else .error ("bad"))
      (some ("nonsense")) = .error ("bad") :=
  ⟨(claim_C6_load_index _ none).1 rfl,
   (claim_C6_load_index
     (fun s => if s = ("ok") then .ok defaultIndex else .error ("bad"))
     (some ("ok"))).2.1 ("ok") defaultIndex rfl rfl,
   (claim_C6_load_index
     (fun s => if s = ("ok") then .ok defaultIndex else .error ("bad"))
     (some ("nonsense"))).2.2 ("nonsense") ("bad") rfl rfl⟩

/-- C7 counterexample: a payload carrying all six required keys but a null
`characters` value makes `from_payload` raise a `TypeError` from the list
comprehension, so `from_payload` can fail although no required key is
missing. -/
theorem claim_C7_counterexample :
    fromPayload [(("session_title"), .str ("t")), (("session_date"), .str ("d")),
      (("characters"), .null), (("locations"), .arr []), (("events"), .arr []),
      (("unresolved_hooks"), .arr [])] =
      .error ("TypeError: \x27NoneType\x27 object is not iterable") ∧
    missingKeys [(("session_title"), .str ("t")), (("session_date"), .str ("d")),
      (("characters"), .null), (("locations"), .arr []), (("events"), .arr []),
      (("unresolved_hooks"), .arr [])] = [] :=
  ⟨rfl, by decide⟩

/-- C7 (amended): `from_payload` raises the missing-keys ValueError, whose
message lists exactly the missing required keys, whenever at least one of the
six required keys is absent; when all six are present it succeeds exactly
when the five list-valued fields (characters, locations, factions, events,
unresolved_hooks) are all iterable values — a present non-iterable value
(null, boolean or number) raises a TypeError instead. -/
theorem claim_C7_amended :
    ∀ payload : List (String × JsonValue),
      (missingKeys payload ≠ [] →
        fromPayload payload = .error (("Missing keys in summarizer JSON: ") ++
          String.intercalate (", ") (missingKeys payload))) ∧
      (missingKeys payload = [] →
        (fromPayload payload).isOk =
          (iterableJson (getJsonD payload ("characters") (.arr [])) &&
           iterableJson (getJsonD payload ("locations") (.arr [])) &&
           iterableJson (getJsonD payload ("factions") (.arr [])) &&
           iterableJson (getJsonD payload ("events") (.arr [])) &&
           iterableJson (getJsonD payload ("unresolved_hooks") (.arr [])))) :=
  fun payload => ⟨fromPayload_missing payload, fromPayload_isOk payload⟩

theorem claim_C7_witness :
    fromPayload ([] : List (String × JsonValue)) =
      .error (("Missing keys in summarizer JSON: ") ++
        String.intercalate (", ") (missingKeys ([] : List (String × JsonValue)))) ∧
    (fromPayload [(("session_title"), .str ("t")), (("session_date"), .str ("d")),
      (("characters"), .arr []), (("locations"), .arr []), (("events"), .arr []),
      (("unresolved_hooks"), .arr [])]).isOk = true :=
  ⟨(claim_C7_amended []).1 (by decide), by
    have h := (claim_C7_amended [(("session_title"), .str ("t")),
      (("session_date"), .str ("d")), (("characters"), .arr []),
      (("locations"), .arr []), (("events"), .arr []),
      (("unresolved_hooks"), .arr [])]).2 (by decide)
    rw [h]
    decide⟩

/-- C8: previous-session retrieval never builds its result from a record
whose transcript resolves to the current transcript (with two records where
the second matches the query, the result equals retrieval over the first
record alone); an empty ledger yields the no-context sentinel; and when
every record is skipped or builds a context with no non-empty emission
field, the result is the no-context sentinel rather than an exception. -/
theorem claim_C8_previous_session :
    ∀ (rk : String → String) (sp : String → List (String × JsonValue))
      (idx : CampaignIndex) (ck : String) (r₁ r₂ : SessionRecord),
      (rk (pyStrip r₂.transcript_file) = ck →
        getPreviousSessionContext rk sp { idx with sessions := [r₁, r₂] } ck =
          getPreviousSessionContext rk sp { idx with sessions := [r₁] } ck) ∧
      (idx.sessions = [] → getPreviousSessionContext rk sp idx ck = .ok none) ∧
      ((∀ r ∈ idx.sessions, pyStrip r.transcript_file = "" ∨
          rk (pyStrip r.transcript_file) = ck ∨
          (∃ ctx, buildContext idx.unresolved_hooks r
              (sp (pyStrip r.transcript_file)) = .ok ctx ∧
            emitCheck ctx = false)) →
        getPreviousSessionContext rk sp idx ck = .ok none) := by
  intro rk sp idx ck r₁ r₂
  refine ⟨?_, ?_, ?_⟩
  · intro hm
    show prevGo rk sp idx.unresolved_hooks ck ([r₁, r₂].reverse) =
      prevGo rk sp idx.unresolved_hooks ck ([r₁].reverse)
    show prevGo rk sp idx.unresolved_hooks ck [r₂, r₁] =
      prevGo rk sp idx.unresolved_hooks ck [r₁]
    rw [prevGo_cons]
    by_cases h0 : pyStrip r₂.transcript_file = ""
    · rw [if_pos h0]
    · rw [if_neg h0, if_pos hm]
  · intro h
    unfold getPreviousSessionContext
    rw [h]
    rfl
  · intro h
    unfold getPreviousSessionContext
    apply prevGo_none
    intro r hr
    exact h r (List.mem_reverse.mp hr)

theorem claim_C8_witness :
    getPreviousSessionContext (fun s => s) (fun _ => []) defaultIndex ("") =
      .ok none ∧
    getPreviousSessionContext (fun s => s) (fun _ => [])
        { defaultIndex with
          sessions := [⟨("T1"), ("d1"), ("n1"), ("t1")⟩,
            ⟨("T2"), ("d2"), ("n2"), ("cur")⟩] } ("cur") =
      getPreviousSessionContext (fun s => s) (fun _ => [])
        { defaultIndex with sessions := [⟨("T1"), ("d1"), ("n1"), ("t1")⟩] }
        ("cur") :=
  ⟨(claim_C8_previous_session (fun s => s) (fun _ => []) defaultIndex ("")
      ⟨("a"), ("b"), ("c"), ("d")⟩ ⟨("a"), ("b"), ("c"), ("d")⟩).2.1 rfl,
   (claim_C8_previous_session (fun s => s) (fun _ => []) defaultIndex ("cur")
      ⟨("T1"), ("d1"), ("n1"), ("t1")⟩ ⟨("T2"), ("d2"), ("n2"), ("cur")⟩).1
      (by decide)⟩

/-- C9 counterexample: the whitespace-only input `" "` produces empty
cleaned output, but `lines_in` counts the raw input lines, so the stats are
`⟨1, 0, 0, 0⟩` rather than all-zero. -/
theorem claim_C9_counterexample :
    cleanTranscriptText (" ") = (("" : String), ⟨1, 0, 0, 0⟩) ∧
    (cleanTranscriptText (" ")).2.lines_in ≠ 0 :=
  ⟨by decide, by decide⟩

/-- C9 (amended): for every empty or whitespace-only input,
`clean_transcript_text` returns (without raising) an empty cleaned output
with `lines_out`, `words_in` and `words_out` all zero, while `lines_in`
equals the number of `splitlines` input lines — zero exactly for the empty
string. -/
theorem claim_C9_amended :
    ∀ raw : List Char, (∀ c ∈ raw, isPySpace c = true) →
      (cleanTranscriptChars raw).1 = [] ∧
      (cleanTranscriptChars raw).2.lines_out = 0 ∧
      (cleanTranscriptChars raw).2.words_in = 0 ∧
      (cleanTranscriptChars raw).2.words_out = 0 ∧
      (cleanTranscriptChars raw).2.lines_in = (splitlines raw).length := by
  intro raw h
  rw [cleanTranscript_whitespace raw h]
  exact ⟨rfl, rfl, rfl, rfl, rfl⟩

theorem claim_C9_witness :
    (cleanTranscriptChars [' ']).1 = [] ∧
    (cleanTranscriptChars [' ']).2.lines_out = 0 ∧
    (cleanTranscriptChars [' ']).2.words_in = 0 ∧
    (cleanTranscriptChars [' ']).2.words_out = 0 ∧
    (cleanTranscriptChars [' ']).2.lines_in = (splitlines [' ']).length :=
  claim_C9_amended [' '] (by decide)

/-- C10: per line, the token sequence of `clean_line`'s output is a
subsequence of the tokens of the input line (cleanup only drops tokens);
consequently every transcript's stats satisfy `words_out ≤ words_in` and
`lines_out ≤ lines_in`. -/
theorem claim_C10_tokens_subsequence :
    (∀ line : List Char,
      (findWords (cleanLine line)).Sublist (findWords line)) ∧
    (∀ raw : List Char,
      (cleanTranscriptChars raw).2.words_out ≤
        (cleanTranscriptChars raw).2.words_in ∧
      (cleanTranscriptChars raw).2.lines_out ≤
        (cleanTranscriptChars raw).2.lines_in) :=
  ⟨findWords_cleanLine_sublist, cleanTranscript_stats⟩

end Pipeline
